import Mathlib

/-!
# Verification of the web-scrapper crawl engine

Shallow embedding of the crawl engine of the `web-scrapper` repository
(`src/enhanced_scraper.py`, `simple_scraper.py`, `src/test_api.py`,
`src/main.py`) together with proofs and refutations of the specification
claims.

Strings are modelled as Lean `String` / `List Char`; Python `len` on a
string is character count, matching `String.length`.  Python whitespace
(`str.strip`, `str.split`, regex `\s`) is modelled exactly; the classes
`\w` and `str.lower` are modelled on their ASCII parts, which is what
every claim exercises.
-/

namespace WebScrapper

/-! ## Character-level utilities shared by the embedding -/

/-- Python whitespace: the characters stripped by `str.strip()`, split
on by `str.split()` and matched by the regex class `\s`.  In CPython
3.11 these three sets coincide: code points 9–13 (`\t\n\x0b\x0c\r`),
28–32 (`\x1c`–`\x1f` and space), `0x85`, `0xa0`, `0x1680`,
`0x2000`–`0x200a`, `0x2028`, `0x2029`, `0x202f`, `0x205f`, `0x3000`. -/
def pws (c : Char) : Bool :=
  (9 ≤ c.toNat ∧ c.toNat ≤ 13) ∨ (28 ≤ c.toNat ∧ c.toNat ≤ 32) ∨
    c.toNat = 0x85 ∨ c.toNat = 0xa0 ∨ c.toNat = 0x1680 ∨
    (0x2000 ≤ c.toNat ∧ c.toNat ≤ 0x200a) ∨ c.toNat = 0x2028 ∨ c.toNat = 0x2029 ∨
    c.toNat = 0x202f ∨ c.toNat = 0x205f ∨ c.toNat = 0x3000

/-- ASCII lower-case letter. -/
def asciiLower (c : Char) : Bool := 'a' ≤ c ∧ c ≤ 'z'

/-- ASCII upper-case letter. -/
def asciiUpper (c : Char) : Bool := 'A' ≤ c ∧ c ≤ 'Z'

/-- ASCII letter (`str.isalpha()` restricted to `str.isascii()` inputs). -/
def asciiAlpha (c : Char) : Bool := asciiLower c ∨ asciiUpper c

/-- ASCII digit (regex `\d` on ASCII input). -/
def asciiDigit (c : Char) : Bool := '0' ≤ c ∧ c ≤ '9'

/-- Regex word character `\w` (ASCII part): letter, digit or underscore. -/
def wordChar (c : Char) : Bool := asciiAlpha c ∨ asciiDigit c ∨ c = '_'

/-- `str.lower()` on one character (ASCII part): map `A`–`Z` to `a`–`z`. -/
def pyLower (c : Char) : Char :=
  if 'A' ≤ c ∧ c ≤ 'Z' then Char.ofNat (c.toNat + 32) else c

/-- Break a character list at the first character satisfying `p`:
returns the prefix of characters not satisfying `p` and the remainder
(which, if nonempty, starts with a character satisfying `p`).  This is
the primitive behind Python's `str.find` / `str.split(sep, 1)`. -/
def breakOn (p : Char → Bool) : List Char → List Char × List Char
  | [] => ([], [])
  | c :: cs =>
    if p c then ([], c :: cs)
    else
      let r := breakOn p cs
      (c :: r.1, r.2)

/-- `str.strip()` (ASCII whitespace part): drop leading and trailing
whitespace. -/
def pyStrip (l : List Char) : List Char :=
  ((l.dropWhile pws).reverse.dropWhile pws).reverse

/-- The maximal runs of non-whitespace characters of a string, in order:
Python's `str.split()` with no argument. -/
def pyWords : List Char → List (List Char)
  | [] => []
  | c :: cs =>
    if pws c then pyWords cs
    else
      match cs with
      | [] => [[c]]
      | d :: _ =>
        if pws d then [c] :: pyWords cs
        else
          match pyWords cs with
          | [] => [[c]]
          | w :: ws => (c :: w) :: ws

/-- `re.sub(r'\s+', ' ', text.strip())`: collapse every whitespace run to
one space and trim the ends.  Equal to joining the whitespace-separated
words with single spaces. -/
def collapseWs (l : List Char) : List Char :=
  List.intercalate [' '] (pyWords l)

/-! ## `ContentExtractor.clean_text` (src/enhanced_scraper.py:113-134)

The four `skip_patterns` regexes are compiled to hand-written matchers,
each applied with `re.IGNORECASE` and anchored at the start
(`re.match`). -/

/-- Case-insensitive literal prefix: if (lowering both sides) `pat` is a
prefix of `l`, return the remainder of `l`, else `none`.  Models
matching a lower-case literal under `re.IGNORECASE`. -/
def dropPrefixCI : List Char → List Char → Option (List Char)
  | [], l => some l
  | _ :: _, [] => none
  | p :: ps, c :: cs => if pyLower c = pyLower p then dropPrefixCI ps cs else none

/-- Regex `^(skip to|jump to|go to)\s+\w+` (IGNORECASE): one of the
three phrases, then at least one whitespace, then a word character
(`\s` and `\w` are disjoint, so greedy matching is exact). -/
def matchSkipNav (l : List Char) : Bool :=
  ["skip to", "jump to", "go to"].any fun ph =>
    match dropPrefixCI ph.toList l with
    | none => false
    | some rest =>
      match rest with
      | [] => false
      | c :: _ =>
        pws c &&
          match rest.dropWhile pws with
          | [] => false
          | d :: _ => wordChar d

/-- Regex `^(home|about|contact|privacy|terms)\s*$` (IGNORECASE): one of
the five words followed only by whitespace up to the end. -/
def matchNavWord (l : List Char) : Bool :=
  ["home", "about", "contact", "privacy", "terms"].any fun ph =>
    match dropPrefixCI ph.toList l with
    | none => false
    | some rest => rest.all pws

/-- Regex `^\s*(©|copyright)\s*\d{4}` (IGNORECASE): optional whitespace,
a copyright mark, optional whitespace, then four digits. -/
def matchCopyright (l : List Char) : Bool :=
  let l := l.dropWhile pws
  ["©", "copyright"].any fun ph =>
    match dropPrefixCI ph.toList l with
    | none => false
    | some rest =>
      let rest := rest.dropWhile pws
      decide ((rest.take 4).length = 4) && (rest.take 4).all asciiDigit

/-- Regex `^(follow us|connect with us)` (IGNORECASE). -/
def matchFollowUs (l : List Char) : Bool :=
  ["follow us", "connect with us"].any fun ph => (dropPrefixCI ph.toList l).isSome

/-- One of the four `skip_patterns` matches at the start of the text. -/
def matchesSkipPattern (l : List Char) : Bool :=
  matchSkipNav l || matchNavWord l || matchCopyright l || matchFollowUs l

/-- `ContentExtractor.clean_text`: empty input stays empty; otherwise
collapse whitespace, and return `""` if a navigation/footer boilerplate
pattern matches the collapsed text. -/
def cleanText (s : String) : String :=
  if s = "" then ""
  else
    let t := collapseWs s.toList
    if matchesSkipPattern t then "" else t.asString

/-- `len(text.split())`: the number of whitespace-separated words. -/
def countWords (s : String) : Nat := (pyWords s.toList).length

/-! ## `ContentExtractor.extract_main_content` (src/enhanced_scraper.py:178-275)

The BeautifulSoup document is abstracted to the raw texts the extractor
reads: the first `<title>` and first `<h1>` texts (read before the
script/style/nav/footer/header removal), and, from the pruned tree, the
`h1`–`h6` texts in the code's iteration order (grouped by level), the
`<p>` texts, and the text of the first landmark-selector match
(`main`, `article`, `.content`, `.main-content`, `#content`, `#main`).
List and table extraction, links, media and metadata are carried by the
scraper abstraction only where a claim needs them. -/

structure HtmlDoc where
  titleText : Option String
  h1Text : Option String
  hTexts : List (Nat × String)
  pTexts : List String
  mainText : Option String
deriving Repr, DecidableEq

structure Heading where
  level : Nat
  text : String
deriving Repr, DecidableEq

structure MainContent where
  title : String
  headings : List Heading
  paragraphs : List String
  mainContent : String
deriving Repr, DecidableEq

/-- Headings: every `h1`–`h6` whose cleaned text is nonempty and has at
least two words (`if text and len(text.split()) >= 2`). -/
def extractHeadings (hs : List (Nat × String)) : List Heading :=
  hs.filterMap fun lt =>
    let text := cleanText lt.2
    if text ≠ "" ∧ 2 ≤ countWords text then some ⟨lt.1, text⟩ else none

/-- Paragraphs: every `<p>` whose cleaned text is nonempty, longer than
30 characters and has at least five words
(`if text and len(text) > 30 and len(text.split()) >= 5`). -/
def extractParagraphs (ps : List String) : List String :=
  ps.filterMap fun raw =>
    let text := cleanText raw
    if text ≠ "" ∧ 30 < text.length ∧ 5 ≤ countWords text then some text else none

/-- The title, headings, paragraphs and main-content text assembled as in
`extract_main_content` (title falls back to the first `<h1>`; main
content falls back to the first five paragraphs joined by spaces). -/
def extractMainContent (doc : HtmlDoc) : MainContent :=
  let title :=
    match doc.titleText with
    | some t => cleanText t
    | none => ""
  let title :=
    if title = "" then
      match doc.h1Text with
      | some t => cleanText t
      | none => ""
    else title
  let headings := extractHeadings doc.hTexts
  let paragraphs := extractParagraphs doc.pTexts
  let mainContent :=
    match doc.mainText with
    | some t => cleanText t
    | none => ""
  let mainContent :=
    if mainContent = "" then String.intercalate " " (paragraphs.take 5) else mainContent
  ⟨title, headings, paragraphs, mainContent⟩

/-! ## `URLProcessor.normalize_url` (src/enhanced_scraper.py:45-74)

`normalize_url` strips the input, parses it with
`urllib.parse.urlparse`, drops the fragment, defaults the scheme to
`https`, lower-cases the host and removes one leading `www.` label,
strips trailing `/` from the path (an empty path becomes `/`), and
re-serialises with `urllib.parse.urlunparse`.  The CPython
`urllib.parse` routines are modelled below on `List Char`.  The
`ValueError`s CPython raises for mismatched IPv6 brackets or non-ASCII
hosts are not modelled: the source catches every exception and returns
the input unchanged, on which normalization is trivially idempotent, so
no claim depends on them. -/

/-- The components of `urllib.parse.urlsplit`. -/
structure SplitResult where
  scheme : List Char
  netloc : List Char
  path : List Char
  query : List Char
  fragment : List Char
deriving Repr, DecidableEq

/-- The components of `urllib.parse.urlparse` (`SplitResult` plus the
`params` field split from the path). -/
structure ParseResult where
  scheme : List Char
  netloc : List Char
  path : List Char
  params : List Char
  query : List Char
  fragment : List Char
deriving Repr, DecidableEq

/-- `scheme_chars`: characters allowed after the first letter of a URL
scheme. -/
def schemeChar (c : Char) : Bool :=
  asciiAlpha c || asciiDigit c || c = '+' || c = '-' || c = '.'

/-- The tab/CR/LF removal CPython's `urlsplit` applies to the URL. -/
def removeTabsNewlines (l : List Char) : List Char :=
  l.filter fun c => ¬(c = '\t' ∨ c = '\r' ∨ c = '\n')

/-- A WHATWG C0-control-or-space character (code points 0x00–0x20),
left-stripped by CPython's `urlsplit` before any other processing. -/
def c0ControlOrSpace (c : Char) : Bool := c.toNat ≤ 32

/-- A character ending the netloc portion (`_splitnetloc` stops at the
first of `/`, `?`, `#`). -/
def netlocDelim (c : Char) : Bool := c = '/' || c = '?' || c = '#'

/-- Scheme detection: if the text before the first `:` is an ASCII
letter followed by scheme characters, split it off, lower-cased. -/
def splitScheme (url : List Char) : List Char × List Char :=
  match breakOn (· = ':') url with
  | (pre, _ :: post) =>
    match pre with
    | [] => ([], url)
    | c :: cs => if asciiAlpha c ∧ cs.all schemeChar then ((c :: cs).map pyLower, post) else ([], url)
  | (_, []) => ([], url)

/-- `_splitnetloc`: after a leading `//`, the netloc runs to the first
`/`, `?` or `#`. -/
def splitNetloc (rest : List Char) : List Char × List Char :=
  if rest.take 2 = ['/', '/'] then breakOn netlocDelim (rest.drop 2)
  else ([], rest)

/-- `s.split(ch, 1)`: the part before the first `ch` and the part after
it (everything, paired with `[]`, when `ch` does not occur). -/
def splitOff (ch : Char) (l : List Char) : List Char × List Char :=
  match breakOn (· = ch) l with
  | (a, _ :: b) => (a, b)
  | (a, []) => (a, [])

/-- `urllib.parse.urlsplit` (with `allow_fragments=True`): left-strip
C0-control-or-space, remove tab/CR/LF, take the scheme, take a netloc
after `//`, split off the fragment at the first `#` and then the query
at the first `?`. -/
def pyUrlsplit (input : List Char) : SplitResult :=
  let url := removeTabsNewlines (input.dropWhile c0ControlOrSpace)
  let sp := splitScheme url
  let np := splitNetloc sp.2
  let fr := splitOff '#' np.2
  let qu := splitOff '?' fr.1
  ⟨sp.1, np.1, qu.1, qu.2, fr.2⟩

/-- The schemes for which `urlparse` splits `;params` from the path. -/
def usesParams : List (List Char) :=
  ["", "ftp", "hdl", "prospero", "http", "imap", "https", "shttp",
    "rtsp", "rtsps", "rtspu", "sip", "sips", "mms", "sftp", "tel"].map String.toList

/-- The schemes for which `urlunsplit` re-inserts a `//` even with an
empty netloc (`uses_netloc`). -/
def usesNetloc : List (List Char) :=
  ["", "ftp", "http", "gopher", "nntp", "telnet", "imap", "wais", "file",
    "mms", "https", "shttp", "snews", "prospero", "rtsp", "rtsps", "rtspu",
    "rsync", "svn", "svn+ssh", "sftp", "nfs", "git", "git+ssh", "ws",
    "wss"].map String.toList

/-- `urllib.parse._splitparams`: split the path at the first `;` located
after the last `/` (or anywhere when the path has no `/`); no such `;`
means no params. -/
def splitParams (s : List Char) : List Char × List Char :=
  let r := breakOn (· = '/') s.reverse
  let afterLastSlash := r.1.reverse
  let upToLastSlash := r.2.reverse
  match breakOn (· = ';') afterLastSlash with
  | (_, []) => (s, [])
  | (b1, _ :: b2) => (upToLastSlash ++ b1, b2)

/-- `urllib.parse.urlparse`: `urlsplit`, then split params when the
scheme uses them and the path contains a `;`. -/
def pyUrlparse (input : List Char) : ParseResult :=
  let s := pyUrlsplit input
  if s.scheme ∈ usesParams ∧ ';' ∈ s.path then
    let pp := splitParams s.path
    ⟨s.scheme, s.netloc, pp.1, pp.2, s.query, s.fragment⟩
  else ⟨s.scheme, s.netloc, s.path, [], s.query, s.fragment⟩

/-- `str.rstrip('/')`: drop trailing `/` characters. -/
def rstripSlash (l : List Char) : List Char := (l.reverse.dropWhile (· = '/')).reverse

/-- The path rewriting of `normalize_url`: strip trailing `/`, an empty
result becomes `/`. -/
def pathStep (l : List Char) : List Char :=
  if rstripSlash l = [] then ['/'] else rstripSlash l

/-- The component rewriting of `normalize_url`: drop the fragment,
default the scheme to `https`, lower-case the netloc and strip one
leading `www.` label (only when more follows it), strip trailing `/`
from the path, and turn an empty path into `/`. -/
def normalizeParsed (p : ParseResult) : ParseResult :=
  let p := { p with fragment := [] }
  let p := if p.scheme = [] then { p with scheme := "https".toList } else p
  let netloc := p.netloc.map pyLower
  let netloc :=
    if "www.".toList.isPrefixOf netloc ∧ 4 < netloc.length then netloc.drop 4 else netloc
  let p := { p with netloc := netloc }
  { p with path := pathStep p.path }

/-- `urllib.parse.urlunparse` (via `urlunsplit`): re-join `;params`,
re-insert `//netloc` when there is a netloc, or when the scheme is a
`uses_netloc` scheme and the path does not already start with `//`;
prepend `scheme:`, and append `?query` and `#fragment` when nonempty. -/
def pyUrlunparse (p : ParseResult) : List Char :=
  let url := if p.params ≠ [] then p.path ++ ';' :: p.params else p.path
  let url :=
    if p.netloc ≠ [] ∨ (p.scheme ≠ [] ∧ p.scheme ∈ usesNetloc ∧ url.take 2 ≠ ['/', '/']) then
      '/' :: '/' :: p.netloc ++ (if url ≠ [] ∧ url.head? ≠ some '/' then '/' :: url else url)
    else url
  let url := if p.scheme ≠ [] then p.scheme ++ ':' :: url else url
  let url := if p.query ≠ [] then url ++ '?' :: p.query else url
  if p.fragment ≠ [] then url ++ '#' :: p.fragment else url

/-- `URLProcessor.normalize_url`: strip, parse, rewrite, re-serialise. -/
def normalizeUrl (url : String) : String :=
  (pyUrlunparse (normalizeParsed (pyUrlparse (pyStrip url.toList)))).asString

/-! ## `EnhancedWebScraper._calculate_quality_score` (src/enhanced_scraper.py:519-552)

Python floats are modelled by `ℚ`; the constants `0.05`–`0.3` and the
comparisons involved are exact in either representation.
Each `score += bonus` statement of the Python function is one helper
below; `calculateQualityScore` chains them in statement order. -/

/-- `if content['title'] and len(content['title']) > 10: score += 0.2`. -/
def qsTitle (content : MainContent) (score : ℚ) : ℚ :=
  if content.title ≠ "" ∧ 10 < content.title.length then score + 2/10 else score

/-- The three-tier main-content length bonus (`0.3`/`0.2`/`0.1` for
`> 500`/`> 200`/`> 100` characters). -/
def qsTextLength (content : MainContent) (score : ℚ) : ℚ :=
  if 500 < content.mainContent.length then score + 3/10
  else if 200 < content.mainContent.length then score + 2/10
  else if 100 < content.mainContent.length then score + 1/10
  else score

/-- `if content['headings']: score += 0.2`. -/
def qsHeadings (content : MainContent) (score : ℚ) : ℚ :=
  if content.headings ≠ [] then score + 2/10 else score

/-- `if content['paragraphs']: score += 0.2`. -/
def qsParagraphs (content : MainContent) (score : ℚ) : ℚ :=
  if content.paragraphs ≠ [] then score + 2/10 else score

/-- `if len(content['paragraphs']) > 3: score += 0.1`. -/
def qsParagraphCount (content : MainContent) (score : ℚ) : ℚ :=
  if 3 < content.paragraphs.length then score + 1/10 else score

/-- The text-to-HTML density bonus, guarded by `html_length > 0`
(`0.1` for a quotient above `0.1`, else `0.05` above `0.05`). -/
def qsDensity (content : MainContent) (htmlLength : Nat) (score : ℚ) : ℚ :=
  if 0 < htmlLength then
    let r : ℚ := (content.mainContent.length : ℚ) / (htmlLength : ℚ)
    if 1/10 < r then score + 1/10
    else if 1/20 < r then score + 1/20
    else score
  else score

/-- The content quality score: accumulate the bonuses, cap at `1.0`. -/
def calculateQualityScore (content : MainContent) (htmlLength : Nat) : ℚ :=
  min 1
    (qsDensity content htmlLength
      (qsParagraphCount content
        (qsParagraphs content
          (qsHeadings content
            (qsTextLength content
              (qsTitle content 0))))))

/-! ## `EnhancedWebScraper.scrape_url` (src/enhanced_scraper.py:404-517)

The network is an oracle `fetch : Nat → FetchOutcome` giving the outcome
of each attempted HTTP GET (indexed by `retry_count`), and the exclusion
patterns are an oracle predicate (`URLProcessor.should_exclude_url` over
the configured regex list).  The model returns, besides the result
dictionary and the updated `visited_urls` set, the number of network
attempts actually performed and the list of back-off sleeps (in
seconds), which the retry claims are about. -/

/-- Outcome of one attempted HTTP GET inside `scrape_url`:
a response (with status, optional redirect target, parsed document,
raw HTML length and content-type header), a timeout
(`asyncio.TimeoutError`), or a transport error (`aiohttp.ClientError`
with its message). -/
inductive FetchOutcome where
  | response (status : Nat) (redirectedTo : Option String) (doc : HtmlDoc)
      (htmlLength : Nat) (contentType : String)
  | timeout
  | clientError (msg : String)
deriving Repr, DecidableEq

/-- The success dictionary of `scrape_url`, restricted to the fields the
claims are about (links, media, meta and structured data are independent
dictionary entries no claim mentions). -/
structure PageRecord where
  url : String
  title : String
  headings : List Heading
  paragraphs : List String
  mainContent : String
  textLength : Nat
  contentLength : Nat
  qualityScore : ℚ
  statusCode : Nat
  contentType : String
deriving Repr, DecidableEq

/-- A `scrape_url` return value: the success dictionary, or an error
dictionary `{"error": msg, "url": url}` with its optional
`"status_code"` entry. -/
inductive ScrapeResult where
  | success (page : PageRecord)
  | failure (error : String) (url : String) (statusCode : Option Nat)
deriving Repr, DecidableEq

/-- The status-specific error message for a non-200 response. -/
def httpErrorMessage (status : Nat) : String :=
  if status = 404 then "Page not found"
  else if status = 403 then "Access forbidden"
  else if status = 500 then "Server error"
  else "HTTP " ++ toString status

/-- `scrape_url(url, retry_count)`.  Returns
`(result, visited_urls, network attempts performed, back-off sleeps)`.
The recursion mirrors the retry-via-recursive-call of the source: note
that the recursive call receives the `visited_urls` set that already
contains the normalized URL (added before the network call). -/
def scrapeUrl (maxRetries : Nat) (exclude : String → Bool) (fetch : Nat → FetchOutcome)
    (visited : List String) (url : String)
    (retryCount : Nat) : ScrapeResult × List String × Nat × List ℚ :=
  let normalized := normalizeUrl url
  if normalized ∈ visited then (.failure "Already visited" url none, visited, 0, [])
  else if exclude normalized then (.failure "URL excluded by pattern" url none, visited, 0, [])
  else
    let visited := normalized :: visited
    match fetch retryCount with
    | .response status redirectedTo doc htmlLength contentType =>
      let normalized :=
        match redirectedTo with
        | some finalUrl => normalizeUrl finalUrl
        | none => normalized
      if status ≠ 200 then
        (.failure (httpErrorMessage status) normalized (some status), visited, 1, [])
      else
        let content := extractMainContent doc
        let page : PageRecord :=
          { url := normalized
            title := content.title
            headings := content.headings
            paragraphs := content.paragraphs
            mainContent := (content.mainContent.toList.take 1000).asString
            textLength := content.mainContent.length
            contentLength := htmlLength
            qualityScore := calculateQualityScore content htmlLength
            statusCode := status
            contentType := contentType }
        (.success page, visited, 1, [])
    | .timeout =>
      if _h : retryCount < maxRetries then
        let r := scrapeUrl maxRetries exclude fetch visited url (retryCount + 1)
        (r.1, r.2.1, r.2.2.1 + 1, ((2 : ℚ) ^ retryCount) :: r.2.2.2)
      else (.failure "Timeout" url none, visited, 1, [])
    | .clientError msg =>
      if _h : retryCount < maxRetries then
        let r := scrapeUrl maxRetries exclude fetch visited url (retryCount + 1)
        (r.1, r.2.1, r.2.2.1 + 1, ((2 : ℚ) ^ retryCount) :: r.2.2.2)
      else (.failure ("Client error: " ++ msg) url none, visited, 1, [])
  termination_by maxRetries - retryCount

/-! ## Helper lemmas -/

/-- A string longer than 10 characters is nonempty (truthy in Python). -/
lemma ne_empty_of_ten_lt_length {s : String} (h : 10 < s.length) : s ≠ "" := by
  intro he
  subst he
  simp at h

/-- Pull an accumulated bonus out of a conditional. -/
lemma ite_add_bonus (P : Prop) [Decidable P] (s x : ℚ) :
    (if P then s + x else s) = s + (if P then x else 0) := by
  split <;> simp

/-- Pull a three-tier accumulated bonus out of its conditionals. -/
lemma ite_add_bonus₃ (P Q R : Prop) [Decidable P] [Decidable Q] [Decidable R]
    (s x y z : ℚ) :
    (if P then s + x else if Q then s + y else if R then s + z else s) =
      s + (if P then x else if Q then y else if R then z else 0) := by
  split
  · simp
  · split
    · simp
    · split <;> simp

/-- A conditional bonus with nonnegative arms is nonnegative. -/
lemma ite_bonus_nonneg (P : Prop) [Decidable P] {x : ℚ} (hx : 0 ≤ x) :
    0 ≤ (if P then x else 0) := by
  split
  · exact hx
  · exact le_refl 0

/-- A three-tier conditional bonus with nonnegative arms is nonnegative. -/
lemma ite_bonus₃_nonneg (P Q R : Prop) [Decidable P] [Decidable Q] [Decidable R]
    {x y z : ℚ} (hx : 0 ≤ x) (hy : 0 ≤ y) (hz : 0 ≤ z) :
    0 ≤ (if P then x else if Q then y else if R then z else 0) := by
  split
  · exact hx
  · split
    · exact hy
    · split
      · exact hz
      · exact le_refl 0

/-- The title bonus as an additive term (a title longer than 10
characters is automatically nonempty). -/
lemma qsTitle_eq (content : MainContent) (s : ℚ) :
    qsTitle content s = s + (if 10 < content.title.length then 2/10 else 0) := by
  unfold qsTitle
  by_cases h : 10 < content.title.length
  · rw [if_pos ⟨ne_empty_of_ten_lt_length h, h⟩, if_pos h]
  · rw [if_neg (fun hc => h hc.2), if_neg h, add_zero]

/-- The length-tier bonus as an additive term. -/
lemma qsTextLength_eq (content : MainContent) (s : ℚ) :
    qsTextLength content s =
      s + (if 500 < content.mainContent.length then 3/10
        else if 200 < content.mainContent.length then 2/10
        else if 100 < content.mainContent.length then 1/10
        else 0) := by
  unfold qsTextLength
  split_ifs <;> simp

/-- The headings bonus as an additive term. -/
lemma qsHeadings_eq (content : MainContent) (s : ℚ) :
    qsHeadings content s = s + (if content.headings ≠ [] then 2/10 else 0) := by
  unfold qsHeadings
  split_ifs <;> simp

/-- The paragraphs bonus as an additive term. -/
lemma qsParagraphs_eq (content : MainContent) (s : ℚ) :
    qsParagraphs content s = s + (if content.paragraphs ≠ [] then 2/10 else 0) := by
  unfold qsParagraphs
  split_ifs <;> simp

/-- The paragraph-count bonus as an additive term. -/
lemma qsParagraphCount_eq (content : MainContent) (s : ℚ) :
    qsParagraphCount content s = s + (if 3 < content.paragraphs.length then 1/10 else 0) := by
  unfold qsParagraphCount
  split_ifs <;> simp

/-- The density bonus as an additive term: for `htmlLength = 0` the
quotient reads as `0` (division by zero), which matches the skipped
branch of the code. -/
lemma qsDensity_eq (content : MainContent) (htmlLength : Nat) (s : ℚ) :
    qsDensity content htmlLength s =
      s + (if 1/10 < (content.mainContent.length : ℚ) / (htmlLength : ℚ) then 1/10
        else if 1/20 < (content.mainContent.length : ℚ) / (htmlLength : ℚ) then 1/20
        else 0) := by
  unfold qsDensity
  obtain hz | hz := Nat.eq_zero_or_pos htmlLength
  · subst hz
    norm_num
  · rw [if_pos hz]
    show (if 1/10 < (content.mainContent.length : ℚ) / (htmlLength : ℚ) then s + 1/10
      else if 1/20 < (content.mainContent.length : ℚ) / (htmlLength : ℚ) then s + 1/20
      else s) = _
    split_ifs <;> simp

/-! ## Claim theorems: content extraction and quality score -/

/-- **C7.** For every extracted page, the quality score equals the
additive formula of the spec — +0.2 for a title longer than 10
characters; exactly one of +0.3/+0.2/+0.1 for main-content length above
500/200/100 characters (highest tier wins); +0.2 for at least one
heading; +0.2 for at least one paragraph; +0.1 for more than 3
paragraphs; +0.1 for a main-content/raw-HTML length quotient above 0.1,
else +0.05 above 0.05 — capped by `min 1.0`, and consequently
`0.0 ≤ qualityScore ≤ 1.0` for all inputs.  (For `htmlLength = 0` the
quotient is read as 0, matching the code's `html_length > 0` guard.) -/
theorem qualityScore_additive_formula_and_bounds (content : MainContent) (htmlLength : Nat) :
    calculateQualityScore content htmlLength =
      min 1
        ((if 10 < content.title.length then 2/10 else 0) +
          (if 500 < content.mainContent.length then 3/10
            else if 200 < content.mainContent.length then 2/10
            else if 100 < content.mainContent.length then 1/10
            else 0) +
          (if content.headings ≠ [] then 2/10 else 0) +
          (if content.paragraphs ≠ [] then 2/10 else 0) +
          (if 3 < content.paragraphs.length then 1/10 else 0) +
          (if 1/10 < (content.mainContent.length : ℚ) / (htmlLength : ℚ) then 1/10
            else if 1/20 < (content.mainContent.length : ℚ) / (htmlLength : ℚ) then 1/20
            else 0)) ∧
      0 ≤ calculateQualityScore content htmlLength ∧
      calculateQualityScore content htmlLength ≤ 1 := by
  have htitle : (content.title ≠ "" ∧ 10 < content.title.length) ↔ 10 < content.title.length :=
    ⟨fun h => h.2, fun h => ⟨ne_empty_of_ten_lt_length h, h⟩⟩
  have hratio :
      (if 0 < htmlLength then
          (if 1/10 < (content.mainContent.length : ℚ) / (htmlLength : ℚ) then (1 : ℚ)/10
            else if 1/20 < (content.mainContent.length : ℚ) / (htmlLength : ℚ) then 1/20
            else 0)
        else 0) =
        (if 1/10 < (content.mainContent.length : ℚ) / (htmlLength : ℚ) then (1 : ℚ)/10
          else if 1/20 < (content.mainContent.length : ℚ) / (htmlLength : ℚ) then 1/20
          else 0) := by
    split
    · rfl
    · rename_i hz
      have h0 : htmlLength = 0 := by omega
      subst h0
      norm_num
  have heq :
      calculateQualityScore content htmlLength =
        min 1
          ((if 10 < content.title.length then 2/10 else 0) +
            (if 500 < content.mainContent.length then 3/10
              else if 200 < content.mainContent.length then 2/10
              else if 100 < content.mainContent.length then 1/10
              else 0) +
            (if content.headings ≠ [] then 2/10 else 0) +
            (if content.paragraphs ≠ [] then 2/10 else 0) +
            (if 3 < content.paragraphs.length then 1/10 else 0) +
            (if 1/10 < (content.mainContent.length : ℚ) / (htmlLength : ℚ) then 1/10
              else if 1/20 < (content.mainContent.length : ℚ) / (htmlLength : ℚ) then 1/20
              else 0)) := by
    simp only [calculateQualityScore, qsTitle_eq, qsTextLength_eq, qsHeadings_eq,
      qsParagraphs_eq, qsParagraphCount_eq, qsDensity_eq]
    congr 1
    ring
  refine ⟨heq, ?_, ?_⟩
  · rw [heq]
    have hsum :
        0 ≤ (if 10 < content.title.length then (2 : ℚ)/10 else 0) +
            (if 500 < content.mainContent.length then 3/10
              else if 200 < content.mainContent.length then 2/10
              else if 100 < content.mainContent.length then 1/10
              else 0) +
            (if content.headings ≠ [] then 2/10 else 0) +
            (if content.paragraphs ≠ [] then 2/10 else 0) +
            (if 3 < content.paragraphs.length then 1/10 else 0) +
            (if 1/10 < (content.mainContent.length : ℚ) / (htmlLength : ℚ) then 1/10
              else if 1/20 < (content.mainContent.length : ℚ) / (htmlLength : ℚ) then 1/20
              else 0) := by
      have h1 := ite_bonus_nonneg (10 < content.title.length) (x := (2 : ℚ)/10) (by norm_num)
      have h2 := ite_bonus₃_nonneg (500 < content.mainContent.length)
        (200 < content.mainContent.length) (100 < content.mainContent.length)
        (x := (3 : ℚ)/10) (y := 2/10) (z := 1/10) (by norm_num) (by norm_num) (by norm_num)
      have h3 := ite_bonus_nonneg (content.headings ≠ []) (x := (2 : ℚ)/10) (by norm_num)
      have h4 := ite_bonus_nonneg (content.paragraphs ≠ []) (x := (2 : ℚ)/10) (by norm_num)
      have h5 := ite_bonus_nonneg (3 < content.paragraphs.length) (x := (1 : ℚ)/10) (by norm_num)
      have h6 := ite_bonus₃_nonneg
        (1/10 < (content.mainContent.length : ℚ) / (htmlLength : ℚ))
        (1/20 < (content.mainContent.length : ℚ) / (htmlLength : ℚ)) True
        (x := (1 : ℚ)/10) (y := 1/20) (z := 0) (by norm_num) (by norm_num) (le_refl 0)
      rw [if_pos trivial] at h6
      linarith
    exact le_min (by norm_num) hsum
  · rw [heq]
    exact min_le_left 1 _

/-- A string of positive length is nonempty. -/
lemma ne_empty_of_length_pos {s : String} (h : 0 < s.length) : s ≠ "" := by
  intro he
  subst he
  simp at h

/-- **C8.** The extracted paragraphs are exactly the `<p>` elements whose
cleaned text exceeds 30 characters and has at least 5 words (the code's
extra nonemptiness test is implied by the length bound); in particular a
document with one 15-character and one 45-character paragraph keeps only
the 45-character one. -/
theorem paragraphs_are_filtered_by_length_and_words :
    (∀ ps : List String,
      extractParagraphs ps =
        (ps.map cleanText).filter fun t => decide (30 < t.length ∧ 5 ≤ countWords t)) ∧
      extractParagraphs
          ["Short text here", "This paragraph contains forty five characters"] =
        ["This paragraph contains forty five characters"] := by
  constructor
  · intro ps
    induction ps with
    | nil => rfl
    | cons raw rest ih =>
      simp only [extractParagraphs, List.filterMap_cons, List.map_cons, List.filter_cons] at *
      by_cases h : 30 < (cleanText raw).length ∧ 5 ≤ countWords (cleanText raw)
      · rw [if_pos ⟨ne_empty_of_length_pos (by omega), h.1, h.2⟩]
        rw [decide_eq_true h]
        simpa using ih
      · rw [if_neg fun hc => h ⟨hc.2.1, hc.2.2⟩]
        rw [decide_eq_false h]
        simpa using ih
  · decide

/-- **C10.** `clean_text` returns the empty string whenever the
whitespace-collapsed text matches one of the built-in boilerplate
patterns (navigation skip phrases, bare navigation words, copyright
lines, social-media phrases); consequently a paragraph that satisfies
the 30-character/5-word floor is still dropped when it matches, and a
two-word heading matching a skip phrase is dropped as well (titles and
link texts pass through the same `clean_text`). -/
theorem cleanText_empties_boilerplate :
    (∀ s : String, matchesSkipPattern (collapseWs s.toList) = true → cleanText s = "") ∧
      cleanText "Follow us on Twitter for updates and news" = "" ∧
      (30 < ("Follow us on Twitter for updates and news" : String).length ∧
        5 ≤ countWords "Follow us on Twitter for updates and news") ∧
      extractParagraphs ["Follow us on Twitter for updates and news"] = [] ∧
      (2 ≤ countWords "Go to top of page") ∧
      extractHeadings [(2, "Go to top of page")] = [] := by
  refine ⟨?_, by decide, by decide, by decide, by decide, by decide⟩
  intro s h
  unfold cleanText
  by_cases he : s = ""
  · rw [if_pos he]
  · rw [if_neg he]
    simp only [h]
    rfl

/-! ## Claim theorems: fetching, retries and the page record -/

/-- **C4.** A response with a non-200 status yields a Failure carrying
that status code and the status-specific message (404 "Page not found",
403 "Access forbidden", 500 "Server error", otherwise "HTTP {status}"),
with exactly one network attempt and no back-off sleep (no retry), for
any URL that is not yet visited and not excluded. -/
theorem non200_failure_with_status_message_no_retry
    (maxRetries : Nat) (exclude : String → Bool) (fetch : Nat → FetchOutcome)
    (visited : List String) (url : String) (status : Nat)
    (redirectedTo : Option String) (doc : HtmlDoc) (htmlLength : Nat) (ct : String)
    (hfetch : fetch 0 = .response status redirectedTo doc htmlLength ct)
    (hstatus : status ≠ 200)
    (hvis : normalizeUrl url ∉ visited)
    (hexcl : exclude (normalizeUrl url) = false) :
    scrapeUrl maxRetries exclude fetch visited url 0 =
      (.failure (httpErrorMessage status) (normalizeUrl (redirectedTo.getD url)) (some status),
        normalizeUrl url :: visited, 1, []) ∧
      httpErrorMessage 404 = "Page not found" ∧
      httpErrorMessage 403 = "Access forbidden" ∧
      httpErrorMessage 500 = "Server error" ∧
      ∀ s, s ≠ 404 → s ≠ 403 → s ≠ 500 → httpErrorMessage s = "HTTP " ++ toString s := by
  refine ⟨?_, rfl, rfl, rfl, ?_⟩
  · rw [scrapeUrl, if_neg hvis, if_neg (by simp [hexcl])]
    simp only [hfetch]
    rw [if_pos hstatus]
    cases redirectedTo <;> rfl
  · intro s h1 h2 h3
    unfold httpErrorMessage
    rw [if_neg h1, if_neg h2, if_neg h3]

/-- Witness for the non-200 theorem: a 404 response for a fresh seed URL
produces the "Page not found" Failure with status code 404 after a
single attempt. -/
theorem non200_failure_witness :
    scrapeUrl 3 (fun _ => false)
        (fun _ => .response 404 none ⟨none, none, [], [], none⟩ 100 "text/html")
        [] "https://example.com" 0 =
      (.failure "Page not found" "https://example.com/" (some 404),
        ["https://example.com/"], 1, []) := by
  have h := non200_failure_with_status_message_no_retry 3 (fun _ => false)
    (fun _ => .response 404 none ⟨none, none, [], [], none⟩ 100 "text/html")
    [] "https://example.com" 404 none ⟨none, none, [], [], none⟩ 100 "text/html"
    rfl (by decide) (by decide) rfl
  rw [h.1]
  decide

/-- **C5 (bug evidence).** `max_retries = 3`, a fresh scraper, and a URL
whose every fetch attempt times out: the code performs exactly ONE
network attempt, sleeps once (2^0 = 1 second), and returns the error
dictionary "Already visited" — not `maxRetries + 1 = 4` attempts ending
in a "Timeout" Failure as the spec states.  The retry re-enters
`scrape_url`, which finds the URL already in `visited_urls` (it was
added before the network call) and aborts the retry, defeating the
retry logic the code itself announces ("Timeout for {url},
retrying..."). -/
theorem timeout_retry_defeated_by_visited_set :
    scrapeUrl 3 (fun _ => false) (fun _ => .timeout) [] "https://example.com" 0 =
      (.failure "Already visited" "https://example.com" none,
        ["https://example.com/"], 1, [1]) := by
  have hn : normalizeUrl "https://example.com" = "https://example.com/" := by decide
  rw [scrapeUrl, if_neg (by simp), if_neg (by simp)]
  show (let r := scrapeUrl 3 (fun _ => false) (fun _ => .timeout)
          [normalizeUrl "https://example.com"] "https://example.com" (0 + 1);
        (r.1, r.2.1, r.2.2.1 + 1, ((2 : ℚ) ^ 0) :: r.2.2.2)) = _
  rw [scrapeUrl, if_pos (by simp [hn])]
  simp [hn]

/-- **C9.** On a 200 response the returned record's `main_content` field
holds only the first 1000 characters of the extracted main-content
text, while `text_length` and the quality score are computed from the
untruncated text; whenever the extracted text is longer than 1000
characters, `text_length` strictly exceeds the length of the returned
`main_content` string. -/
theorem mainContent_truncated_but_textLength_full
    (maxRetries : Nat) (exclude : String → Bool) (fetch : Nat → FetchOutcome)
    (visited : List String) (url : String)
    (redirectedTo : Option String) (doc : HtmlDoc) (htmlLength : Nat) (ct : String)
    (hfetch : fetch 0 = .response 200 redirectedTo doc htmlLength ct)
    (hvis : normalizeUrl url ∉ visited)
    (hexcl : exclude (normalizeUrl url) = false) :
    scrapeUrl maxRetries exclude fetch visited url 0 =
      (.success
        { url := normalizeUrl (redirectedTo.getD url)
          title := (extractMainContent doc).title
          headings := (extractMainContent doc).headings
          paragraphs := (extractMainContent doc).paragraphs
          mainContent := ((extractMainContent doc).mainContent.toList.take 1000).asString
          textLength := (extractMainContent doc).mainContent.length
          contentLength := htmlLength
          qualityScore := calculateQualityScore (extractMainContent doc) htmlLength
          statusCode := 200
          contentType := ct },
        normalizeUrl url :: visited, 1, []) ∧
      ((extractMainContent doc).mainContent.toList.take 1000).asString.length =
        min 1000 (extractMainContent doc).mainContent.length ∧
      (1000 < (extractMainContent doc).mainContent.length →
        ((extractMainContent doc).mainContent.toList.take 1000).asString.length <
          (extractMainContent doc).mainContent.length) := by
  have hlen : ((extractMainContent doc).mainContent.toList.take 1000).asString.length =
      min 1000 (extractMainContent doc).mainContent.length := by
    show ((extractMainContent doc).mainContent.toList.take 1000).length = _
    rw [List.length_take]
    rfl
  refine ⟨?_, hlen, ?_⟩
  · rw [scrapeUrl, if_neg hvis, if_neg (by simp [hexcl])]
    simp only [hfetch]
    rw [if_neg (by simp)]
    cases redirectedTo <;> rfl
  · intro hlong
    rw [hlen]
    omega

/-- A document whose main-content landmark text is 1001 characters
long, exercising the truncation boundary. -/
def longDoc : HtmlDoc := ⟨none, none, [], [], some (String.mk (List.replicate 1001 'a'))⟩

/-- A nonempty text with no whitespace at all is a single word. -/
lemma pyWords_all_not_ws : ∀ l : List Char, (∀ c ∈ l, pws c = false) → l ≠ [] → pyWords l = [l]
  | [], _, hne => absurd rfl hne
  | [c], h, _ => by simp [pyWords, h c (by simp)]
  | c :: d :: cs, h, _ => by
    have hc : pws c = false := h c (by simp)
    have hd : pws d = false := h d (by simp)
    have ih := pyWords_all_not_ws (d :: cs) (fun x hx => h x (by simp [hx])) (by simp)
    rw [show pyWords (c :: d :: cs) =
        (if pws c = true then pyWords (d :: cs)
          else if pws d = true then [c] :: pyWords (d :: cs)
          else
            match pyWords (d :: cs) with
            | [] => [[c]]
            | w :: ws => (c :: w) :: ws) from rfl]
    rw [hc, hd, ih]
    rfl

/-- Whitespace collapsing fixes a nonempty text with no whitespace. -/
lemma collapseWs_all_not_ws {l : List Char} (h : ∀ c ∈ l, pws c = false) (hne : l ≠ []) :
    collapseWs l = l := by
  unfold collapseWs
  rw [pyWords_all_not_ws l h hne]
  simp [List.intercalate]

/-- When the landmark selector matched and its cleaned text is
nonempty, the extracted main content is that cleaned text. -/
lemma extractMainContent_of_mainText (doc : HtmlDoc) (t : String)
    (hmt : doc.mainText = some t) (hct : cleanText t ≠ "") :
    (extractMainContent doc).mainContent = cleanText t := by
  simp only [extractMainContent, hmt]
  rw [if_neg hct]

/-- The main content extracted from `longDoc` is its 1001-character
landmark text. -/
lemma extract_longDoc_mainContent :
    (extractMainContent longDoc).mainContent = (List.replicate 1001 'a').asString := by
  have hall : ∀ c ∈ List.replicate 1001 'a', pws c = false := by
    intro c hc
    rw [List.eq_of_mem_replicate hc]
    decide
  have hne : List.replicate 1001 'a' ≠ [] := by
    intro hcon
    have hlen := congrArg List.length hcon
    rw [List.length_replicate] at hlen
    exact absurd hlen (by decide)
  have hrep : List.replicate 1001 'a' = 'a' :: 'a' :: List.replicate 999 'a' := by
    show List.replicate (999 + 2) 'a' = _
    rw [List.replicate_succ, List.replicate_succ]
  have hcollapse : collapseWs (List.replicate 1001 'a') = List.replicate 1001 'a' :=
    collapseWs_all_not_ws hall hne
  have hmatch : matchesSkipPattern (List.replicate 1001 'a') = false := by
    rw [hrep]
    decide
  have hsne : String.mk (List.replicate 1001 'a') ≠ "" := by
    intro hcon
    have : List.replicate 1001 'a' = [] := congrArg String.toList hcon
    exact hne this
  have hclean : cleanText (String.mk (List.replicate 1001 'a')) =
      (List.replicate 1001 'a').asString := by
    unfold cleanText
    rw [if_neg hsne]
    show (if matchesSkipPattern (collapseWs (List.replicate 1001 'a')) = true then ""
      else (collapseWs (List.replicate 1001 'a')).asString) = _
    rw [hcollapse, hmatch]
    rfl
  have haslen : ((List.replicate 1001 'a').asString) ≠ "" := by
    intro hcon
    exact hne (congrArg String.toList hcon)
  rw [extractMainContent_of_mainText longDoc (String.mk (List.replicate 1001 'a')) rfl
    (by rw [hclean]; exact haslen)]
  exact hclean

/-- Witness for the truncation theorem: a 1001-character main content
makes `text_length` exceed the length of the stored `main_content`. -/
theorem mainContent_truncation_witness :
    1000 < (extractMainContent longDoc).mainContent.length ∧
      ((extractMainContent longDoc).mainContent.toList.take 1000).asString.length <
        (extractMainContent longDoc).mainContent.length := by
  have h := mainContent_truncated_but_textLength_full 3 (fun _ => false)
    (fun _ => .response 200 none longDoc 5000 "text/html") [] "https://example.com"
    none longDoc 5000 "text/html" rfl (by decide) rfl
  have hlong : 1000 < (extractMainContent longDoc).mainContent.length := by
    rw [extract_longDoc_mainContent]
    show 1000 < (List.replicate 1001 'a').length
    rw [List.length_replicate]
    exact by decide
  exact ⟨hlong, h.2.2 hlong⟩

/-- Witness for the boilerplate theorem: the bare navigation word
"Home" matches a skip pattern and is cleaned to the empty string. -/
theorem cleanText_empties_boilerplate_witness :
    matchesSkipPattern (collapseWs ("Home" : String).toList) = true ∧ cleanText "Home" = "" :=
  ⟨by decide, cleanText_empties_boilerplate.1 "Home" (by decide)⟩

/-! ## `scrape_website` (simple_scraper.py:16-87)

The breadth-first crawl loop of `simple_scraper.py` (mirrored by
`scrape_website_async` in `src/test_api.py`).  The network is an oracle
from URLs to results; `asyncio.gather(..., return_exceptions=True)`
returns results in task order, so the model processes results in
dispatch order.  Besides the final state, the round loop returns as a
ghost observation the list of URLs dispatched in each executed round,
which the page-cap and error-handling claims quantify over. -/

/-- `str.startswith(prefix)`. -/
def pyStartsWith (pre s : String) : Bool := pre.toList.isPrefixOf s.toList

/-- A fetched page as `scrape_single_page` returns it, restricted to the
fields the claims are about: its URL and the `url` values of its link
dictionaries. -/
structure SimplePage where
  url : String
  links : List String
deriving Repr, DecidableEq

/-- One `scrape_single_page` outcome: a result dictionary without an
`"error"` key, a result dictionary with one, or an exception captured by
`gather`. -/
inductive SimpleResult where
  | page (p : SimplePage)
  | error (msg : String)
  | exn (msg : String)
deriving Repr, DecidableEq

/-- The crawl state: collected pages, visited URLs and the current
frontier (`urls_to_visit`). -/
structure CrawlState where
  scraped : List SimplePage
  visited : List String
  frontier : List String
deriving Repr, DecidableEq

/-- The page of a result dictionary, if it is not an error. -/
def pageOf : SimpleResult → Option SimplePage
  | .page p => some p
  | .error _ => none
  | .exn _ => none

/-- Per-round dispatch: walk the copied frontier in order and dispatch
every URL not yet visited while `len(scraped_pages) < max_pages` —
`scrapedLen` is constant during the walk because pages are appended
only after the round's `gather`.  Dispatched URLs enter the visited set
immediately.  Returns the dispatched URLs and the updated visited
set. -/
def selectDispatch (maxPages scrapedLen : Nat) :
    List String → List String → List String × List String
  | [], visited => ([], visited)
  | u :: rest, visited =>
    if u ∉ visited ∧ scrapedLen < maxPages then
      let r := selectDispatch maxPages scrapedLen rest (u :: visited)
      (u :: r.1, r.2)
    else selectDispatch maxPages scrapedLen rest visited

/-- Per-round result processing: a successful page is appended to the
page list, and — while `current_depth < depth - 1` — its link URLs that
are nonempty, start with the seed URL and are not yet visited are
appended to the next round's frontier.  Error dictionaries and
exceptions only get printed: they are dropped. -/
def processResults (seed : String) (depth currentDepth : Nat) (visited : List String) :
    List SimpleResult → List SimplePage → List String → List SimplePage × List String
  | [], scraped, frontier => (scraped, frontier)
  | .page p :: rest, scraped, frontier =>
    let frontier :=
      if currentDepth < depth - 1 then
        frontier ++ p.links.filter fun l => l ≠ "" ∧ pyStartsWith seed l ∧ l ∉ visited
      else frontier
    processResults seed depth currentDepth visited rest (scraped ++ [p]) frontier
  | .error _ :: rest, scraped, frontier =>
    processResults seed depth currentDepth visited rest scraped frontier
  | .exn _ :: rest, scraped, frontier =>
    processResults seed depth currentDepth visited rest scraped frontier

/-- The round loop `for current_depth in range(depth)` with its break
conditions (`not urls_to_visit or len(scraped_pages) >= max_pages`).
Also returns the ghost dispatch log. -/
def crawlRounds (fetch : String → SimpleResult) (seed : String) (depth maxPages : Nat) :
    List Nat → CrawlState → CrawlState × List (List String)
  | [], st => (st, [])
  | currentDepth :: rest, st =>
    if st.frontier = [] ∨ maxPages ≤ st.scraped.length then (st, [])
    else
      let sel := selectDispatch maxPages st.scraped.length st.frontier st.visited
      let results := sel.1.map fetch
      let pf := processResults seed depth currentDepth sel.2 results st.scraped []
      let r := crawlRounds fetch seed depth maxPages rest ⟨pf.1, sel.2, pf.2⟩
      (r.1, sel.1 :: r.2)

/-- The summary dictionary of `scrape_website`, restricted to the
fields the claims are about (`pages_scraped = len(scraped_pages)` and
the `pages` list; the totals in `summary` are sums over `pages`). -/
structure JobSummary where
  baseUrl : String
  pagesScraped : Nat
  pages : List SimplePage
deriving Repr, DecidableEq

/-- `scrape_website(url, depth, max_pages)`: run the rounds from the
seed frontier and build the summary.  The second component is the ghost
dispatch log. -/
def scrapeWebsite (fetch : String → SimpleResult) (url : String) (depth maxPages : Nat) :
    JobSummary × List (List String) :=
  let r := crawlRounds fetch url depth maxPages (List.range depth) ⟨[], [], [url]⟩
  (⟨url, r.1.scraped.length, r.1.scraped⟩, r.2)

/-! ## Claim theorems: page cap and error propagation in the round loop -/

/-- Result processing appends exactly the successful pages, in order. -/
lemma processResults_scraped (seed : String) (depth currentDepth : Nat) (visited : List String) :
    ∀ (results : List SimpleResult) (scraped : List SimplePage) (frontier : List String),
      (processResults seed depth currentDepth visited results scraped frontier).1 =
        scraped ++ results.filterMap pageOf := by
  intro results
  induction results with
  | nil =>
    intro scraped frontier
    simp [processResults]
  | cons r rest ih =>
    intro scraped frontier
    cases r with
    | page p => simp [processResults, ih, pageOf]
    | error m => simp [processResults, ih, pageOf]
    | exn m => simp [processResults, ih, pageOf]

/-- A round dispatches at most its whole frontier. -/
lemma selectDispatch_length_le (maxPages scrapedLen : Nat) :
    ∀ (frontier visited : List String),
      (selectDispatch maxPages scrapedLen frontier visited).1.length ≤ frontier.length := by
  intro frontier
  induction frontier with
  | nil => intro visited; simp [selectDispatch]
  | cons u rest ih =>
    intro visited
    rw [selectDispatch]
    split
    · simpa using ih (u :: visited)
    · exact le_trans (ih visited) (by simp)

/-- The central bound of the round loop: every executed round starts
with fewer than `maxPages` collected pages and appends at most its
dispatch count, so the final count never exceeds `maxPages - 1` plus
the largest per-round dispatch count. -/
lemma crawlRounds_length_bound (fetch : String → SimpleResult) (seed : String)
    (depth maxPages : Nat) :
    ∀ (ds : List Nat) (st : CrawlState),
      (crawlRounds fetch seed depth maxPages ds st).1.scraped.length ≤
        max st.scraped.length
          (maxPages - 1 +
            ((crawlRounds fetch seed depth maxPages ds st).2.map List.length).foldr max 0) := by
  intro ds
  induction ds with
  | nil =>
    intro st
    simp [crawlRounds]
  | cons d rest ih =>
    intro st
    rw [crawlRounds]
    split
    · simp
    · rename_i hbreak
      push_neg at hbreak
      simp only []
      have hsel := selectDispatch_length_le maxPages st.scraped.length st.frontier st.visited
      set sel := selectDispatch maxPages st.scraped.length st.frontier st.visited with hseldef
      set results := sel.1.map fetch with hresdef
      set pf := processResults seed depth d sel.2 results st.scraped [] with hpfdef
      have hpf1 : pf.1 = st.scraped ++ results.filterMap pageOf :=
        processResults_scraped seed depth d sel.2 results st.scraped []
      have hlen1 : pf.1.length ≤ st.scraped.length + sel.1.length := by
        rw [hpf1]
        have := List.length_filterMap_le pageOf results
        simp only [List.length_append]
        have hres : results.length = sel.1.length := by
          rw [hresdef, List.length_map]
        omega
      have hih := ih ⟨pf.1, sel.2, pf.2⟩
      have hj : ({ scraped := pf.1, visited := sel.2, frontier := pf.2 } :
          CrawlState).scraped.length = pf.1.length := rfl
      rw [hj] at hih
      have hlt : st.scraped.length < maxPages := hbreak.2
      simp only [List.map_cons, List.foldr_cons]
      omega

/-- A fetch oracle whose seed page links to three same-site pages, all
of which succeed. -/
def fetchOverflow : String → SimpleResult := fun u =>
  if u = "https://a.com/" then
    .page ⟨u, ["https://a.com/1", "https://a.com/2", "https://a.com/3"]⟩
  else .page ⟨u, []⟩

/-- **C1 (counterexample).** `depth = 2`, `max_pages = 2`: the first
round collects one page; the second round dispatches all three
not-yet-visited frontier URLs — not at most
`maxPages − pagesCollected = 1` — because the per-URL cap check
compares against a page count that only changes after the round's
`gather`; the job ends with 4 collected pages, violating
`pagesCollected ≤ maxPages`. -/
theorem page_cap_exceeded_counterexample :
    (scrapeWebsite fetchOverflow "https://a.com/" 2 2).1.pagesScraped = 4 ∧
      ¬((scrapeWebsite fetchOverflow "https://a.com/" 2 2).1.pagesScraped ≤ 2) ∧
      (scrapeWebsite fetchOverflow "https://a.com/" 2 2).2.map List.length = [1, 3] := by
  decide

/-- **C1 (amended).** A round is entered only while
`pagesCollected < maxPages` and then dispatches ALL not-yet-visited
frontier URLs, so at job end
`pagesCollected ≤ (maxPages − 1) + (largest per-round dispatch count)`;
the stated cap `pagesCollected ≤ maxPages` does hold whenever
`maxDepth ≤ 1`, where the only frontier is the seed itself. -/
theorem page_cap_amended_bound (fetch : String → SimpleResult) (url : String)
    (depth maxPages : Nat) :
    ((scrapeWebsite fetch url depth maxPages).1.pagesScraped ≤
        maxPages - 1 +
          (((scrapeWebsite fetch url depth maxPages).2.map List.length).foldr max 0)) ∧
      (depth ≤ 1 → (scrapeWebsite fetch url depth maxPages).1.pagesScraped ≤ maxPages) := by
  constructor
  · have h := crawlRounds_length_bound fetch url depth maxPages (List.range depth) ⟨[], [], [url]⟩
    simpa [scrapeWebsite] using h
  · intro hd
    interval_cases depth
    · simp [scrapeWebsite, crawlRounds]
    · by_cases hmp : maxPages = 0
      · subst hmp
        have hrange : List.range 1 = [0] := by decide
        simp [scrapeWebsite, hrange, crawlRounds]
      · have hpos : 0 < maxPages := Nat.pos_of_ne_zero hmp
        have hsel : selectDispatch maxPages 0 [url] [] = ([url], [url]) := by
          rw [selectDispatch]
          rw [if_pos ⟨by simp, hpos⟩]
          simp [selectDispatch]
        have hrange : List.range 1 = [0] := by decide
        simp only [scrapeWebsite, hrange]
        rw [crawlRounds]
        rw [if_neg (by simp [Nat.le_zero, hmp])]
        simp only []
        have hconv : (⟨[], [], [url]⟩ : CrawlState).scraped.length = 0 := rfl
        rw [show selectDispatch maxPages (⟨[], [], [url]⟩ : CrawlState).scraped.length
            (⟨[], [], [url]⟩ : CrawlState).frontier (⟨[], [], [url]⟩ : CrawlState).visited =
            ([url], [url]) from hsel]
        have hpages := processResults_scraped url 1 0 [url] [fetch url] [] []
        rw [crawlRounds]
        simp only [List.map_cons, List.map_nil]
        rw [hpages]
        have hle := List.length_filterMap_le pageOf [fetch url]
        simp only [List.nil_append, List.length_map, List.length_cons, List.length_nil] at hle ⊢
        omega

/-- Witness for the amended page-cap bound at `depth = 1`. -/
theorem page_cap_amended_witness :
    (1 : Nat) ≤ 1 ∧
      (scrapeWebsite (fun _ => .error "HTTP 404") "https://x.com/" 1 5).1.pagesScraped ≤ 5 :=
  ⟨le_refl 1,
    (page_cap_amended_bound (fun _ => .error "HTTP 404") "https://x.com/" 1 5).2 (le_refl 1)⟩

/-- A network where every URL answers with HTTP 404: each fetch yields
the error dictionary `{"error": "HTTP 404"}`. -/
def fetch404 : String → SimpleResult := fun _ => .error "HTTP 404"

/-- **C3 (counterexample).** A 404 response for the seed URL:
`scrape_single_page` returns `{"error": "HTTP 404"}` (not "Page not
found", which belongs to the enhanced scraper), and the round loop
appends only dictionaries without an `"error"` key — the seed URL is
dispatched (the ghost log shows it) but the final JobResult contains an
EMPTY pages list, not one Failure PageResult. -/
theorem seed_404_failure_dropped_counterexample :
    (scrapeWebsite fetch404 "https://x.com/" 1 5).2 = [["https://x.com/"]] ∧
      (scrapeWebsite fetch404 "https://x.com/" 1 5).1.pages = [] ∧
      (scrapeWebsite fetch404 "https://x.com/" 1 5).1.pagesScraped = 0 := by
  decide

/-- The page list accumulated by the round loop is exactly the
successful results of all dispatched URLs, in dispatch order. -/
lemma crawlRounds_pages (fetch : String → SimpleResult) (seed : String)
    (depth maxPages : Nat) :
    ∀ (ds : List Nat) (st : CrawlState),
      (crawlRounds fetch seed depth maxPages ds st).1.scraped =
        st.scraped ++
          (((crawlRounds fetch seed depth maxPages ds st).2.flatten).map fetch).filterMap pageOf := by
  intro ds
  induction ds with
  | nil =>
    intro st
    simp [crawlRounds]
  | cons d rest ih =>
    intro st
    rw [crawlRounds]
    split
    · simp
    · simp only []
      set sel := selectDispatch maxPages st.scraped.length st.frontier st.visited with hseldef
      set results := sel.1.map fetch with hresdef
      set pf := processResults seed depth d sel.2 results st.scraped [] with hpfdef
      have hpf1 : pf.1 = st.scraped ++ results.filterMap pageOf :=
        processResults_scraped seed depth d sel.2 results st.scraped []
      have hih := ih ⟨pf.1, sel.2, pf.2⟩
      have hj : ({ scraped := pf.1, visited := sel.2, frontier := pf.2 } :
          CrawlState).scraped = pf.1 := rfl
      rw [hj] at hih
      rw [hih, hpf1]
      simp [hresdef, List.map_append, List.filterMap_append, List.filterMap_map]

/-- **C3 (amended).** Every dispatched URL yields exactly one result,
but the final JobResult's pages list keeps only the Success results (in
dispatch order): Failure results are silently dropped, never appearing
in the JobResult.  (`scrape_single_page` performs no retries, so the
zero-retries part of the scenario holds trivially.) -/
theorem pages_are_successes_of_dispatched (fetch : String → SimpleResult) (url : String)
    (depth maxPages : Nat) :
    (scrapeWebsite fetch url depth maxPages).1.pages =
      (((scrapeWebsite fetch url depth maxPages).2.flatten).map fetch).filterMap pageOf := by
  have h := crawlRounds_pages fetch url depth maxPages (List.range depth) ⟨[], [], [url]⟩
  simpa [scrapeWebsite] using h

/-- A three-level chain of same-site pages: the seed links to p1, p1
links to p2. -/
def fetchChain : String → SimpleResult := fun u =>
  if u = "https://a.com/" then .page ⟨u, ["https://a.com/p1"]⟩
  else if u = "https://a.com/p1" then .page ⟨u, ["https://a.com/p2"]⟩
  else .page ⟨u, []⟩

/-- **C6 (counterexample).** In the round-based crawler
(`simple_scraper.scrape_website`, cited by the claim), links found on a
LATER page do enter the frontier: with `depth = 3`, page p1 — fetched in
the second round, so not the first page of the job — contributes its
link p2, which is dispatched and collected in the third round. -/
theorem later_page_links_expand_frontier_counterexample :
    ((scrapeWebsite fetchChain "https://a.com/" 3 10).1.pages.map SimplePage.url) =
      ["https://a.com/", "https://a.com/p1", "https://a.com/p2"] ∧
      (scrapeWebsite fetchChain "https://a.com/" 3 10).2 =
        [["https://a.com/"], ["https://a.com/p1"], ["https://a.com/p2"]] := by
  decide

/-! ## `scrape_enhanced` (src/main.py:818-993, DEV_MODE crawl)

The sequential while-loop crawler of the enhanced API endpoint.  The
network+parser is an oracle from URLs to the page's anchor tags; fetch
exceptions are not modelled (the source has no per-URL handler — an
exception aborts the whole job), which no claim concerns. -/

structure EnhAnchor where
  href : String
  text : String
deriving Repr, DecidableEq

/-- The parsed document of one fetched page, abstracted to its anchor
tags (`soup.find_all('a', href=True)` in document order, with the raw
`href` attribute and element text). -/
structure EnhPageData where
  anchors : List EnhAnchor
deriving Repr, DecidableEq

/-- `urljoin(current_url, href)` for a root-relative `href` (one
starting with `/`): a protocol-relative `//host/…` href adopts the base
scheme; any other `/…` href replaces the base path.  Modelled for base
URLs of the usual `scheme://host/…` shape. -/
def joinRootRel (currentUrl href : String) : String :=
  let p := pyUrlparse currentUrl.toList
  if pyStartsWith "//" href then (p.scheme ++ ':' :: href.toList).asString
  else (p.scheme ++ ':' :: '/' :: '/' :: (p.netloc ++ href.toList)).asString

/-- `urlparse(a).netloc == urlparse(b).netloc`. -/
def sameNetloc (a b : String) : Bool :=
  decide ((pyUrlparse a.toList).netloc = (pyUrlparse b.toList).netloc)

/-- The resolved link target of one anchor: root-relative hrefs are
joined against the current URL, other non-http(s) hrefs are skipped. -/
def resolveEnhHref (currentUrl href : String) : Option String :=
  if pyStartsWith "/" href then some (joinRootRel currentUrl href)
  else if ¬(pyStartsWith "http://" href ∨ pyStartsWith "https://" href) then none
  else some href

/-- The anchor loop of `scrape_enhanced` (src/main.py:862-877): strip
href and text, resolve the href, collect the link, and — only while
`depth > 1` and no page has been collected yet — append unseen
same-host hrefs to `urls_to_scrape`.  Returns the links list and the
extended `urls_to_scrape`. -/
def processEnhAnchors (currentUrl : String) (depth scrapedLen : Nat) (visited : List String) :
    List EnhAnchor → List (String × String) → List String → List (String × String) × List String
  | [], links, toScrape => (links, toScrape)
  | a :: rest, links, toScrape =>
    let href := (pyStrip a.href.toList).asString
    let text := (pyStrip a.text.toList).asString
    if href ≠ "" ∧ text ≠ "" then
      match resolveEnhHref currentUrl href with
      | none => processEnhAnchors currentUrl depth scrapedLen visited rest links toScrape
      | some href =>
        processEnhAnchors currentUrl depth scrapedLen visited rest (links ++ [(href, text)])
          (if 1 < depth ∧ scrapedLen = 0 ∧ href ∉ visited ∧ href ∉ toScrape ∧
              sameNetloc href currentUrl then
            toScrape ++ [href]
          else toScrape)
    else processEnhAnchors currentUrl depth scrapedLen visited rest links toScrape

/-- One collected page of the enhanced crawl: its URL and link list
(`links[:30]`; the remaining `page_data` fields bear on no claim). -/
structure EnhPage where
  url : String
  links : List (String × String)
deriving Repr, DecidableEq

/-- The `while urls_to_scrape and len(scraped_pages) < max_pages` loop
of `scrape_enhanced`: pop the frontier head, skip it if already
visited, otherwise mark it visited, fetch and parse it, process its
anchors (possibly extending the frontier) and append the page record. -/
def enhLoop (fetchE : String → EnhPageData) (depth maxPages : Nat) :
    List String → List String → List EnhPage → List EnhPage
  | [], _, scraped => scraped
  | current :: rest, visited, scraped =>
    if maxPages ≤ scraped.length then scraped
    else if current ∈ visited then enhLoop fetchE depth maxPages rest visited scraped
    else
      let visited := current :: visited
      let lt := processEnhAnchors current depth scraped.length visited
        (fetchE current).anchors [] rest
      enhLoop fetchE depth maxPages lt.2 visited (scraped ++ [⟨current, lt.1.take 30⟩])
  termination_by toScrape _ scraped => (maxPages - scraped.length, toScrape.length)

/-- The crawl of `scrape_enhanced`: start from the seed frontier. -/
def enhScrape (fetchE : String → EnhPageData) (seed : String) (depth maxPages : Nat) :
    List EnhPage :=
  enhLoop fetchE depth maxPages [seed] [] []

/-- The same-host resolved hrefs of a page's anchors: the candidates
its anchor loop may append to `urls_to_scrape` (before the visited- and
duplicate-filters). -/
def candidateHrefs (currentUrl : String) : List EnhAnchor → List String
  | [] => []
  | a :: rest =>
    let href := (pyStrip a.href.toList).asString
    let text := (pyStrip a.text.toList).asString
    if href ≠ "" ∧ text ≠ "" then
      match resolveEnhHref currentUrl href with
      | none => candidateHrefs currentUrl rest
      | some href =>
        if sameNetloc href currentUrl then href :: candidateHrefs currentUrl rest
        else candidateHrefs currentUrl rest
    else candidateHrefs currentUrl rest

/-- Once a page has been collected — or when `depth ≤ 1` — the anchor
loop never extends the frontier. -/
lemma processEnhAnchors_no_growth (currentUrl : String) (depth scrapedLen : Nat)
    (visited : List String) (hng : ¬(1 < depth ∧ scrapedLen = 0)) :
    ∀ (anchors : List EnhAnchor) (links : List (String × String)) (toScrape : List String),
      (processEnhAnchors currentUrl depth scrapedLen visited anchors links toScrape).2 =
        toScrape := by
  intro anchors
  induction anchors with
  | nil =>
    intro links toScrape
    rfl
  | cons a rest ih =>
    intro links toScrape
    rw [processEnhAnchors]
    split
    · split
      · exact ih links toScrape
      · rw [if_neg fun hc => hng ⟨hc.1, hc.2.1⟩]
        exact ih _ toScrape
    · exact ih links toScrape

/-- Every URL the anchor loop appends to the frontier is a candidate
href of the processed page. -/
lemma processEnhAnchors_additions_sub (currentUrl : String) (depth scrapedLen : Nat)
    (visited : List String) :
    ∀ (anchors : List EnhAnchor) (links : List (String × String)) (toScrape : List String)
      (u : String),
      u ∈ (processEnhAnchors currentUrl depth scrapedLen visited anchors links toScrape).2 →
      u ∈ toScrape ∨ u ∈ candidateHrefs currentUrl anchors := by
  intro anchors
  induction anchors with
  | nil =>
    intro links toScrape u hu
    exact Or.inl hu
  | cons a rest ih =>
    intro links toScrape u hu
    rw [processEnhAnchors] at hu
    rw [candidateHrefs]
    split at hu
    · rename_i hne
      rw [if_pos hne]
      split at hu
      · exact ih links toScrape u hu
      · rename_i href hres
        split at hu
        · rename_i hadd
          rw [if_pos hadd.2.2.2.2]
          rcases ih _ (toScrape ++ [href]) u hu with h | h
          · rcases List.mem_append.mp h with h | h
            · exact Or.inl h
            · right
              rw [List.mem_singleton.mp h]
              exact List.mem_cons_self href _
          · right
            exact List.mem_cons_of_mem _ h
        · rcases ih _ toScrape u hu with h | h
          · exact Or.inl h
          · right
            split
            · exact List.mem_cons_of_mem _ h
            · exact h
    · rename_i hne
      rw [if_neg hne]
      rcases ih links toScrape u hu with h | h
      · exact Or.inl h
      · exact Or.inr h

/-- After the first page has been collected, the frontier only shrinks,
so every page collected later carries a URL already in the frontier. -/
lemma enhLoop_pages_after_first (fetchE : String → EnhPageData) (depth maxPages : Nat)
    (C : String → Prop) :
    ∀ (n : Nat) (toScrape visited : List String) (scraped : List EnhPage),
      toScrape.length + (maxPages - scraped.length) ≤ n →
      scraped ≠ [] →
      (∀ u ∈ toScrape, C u) →
      ∀ p ∈ enhLoop fetchE depth maxPages toScrape visited scraped,
        p ∈ scraped ∨ C p.url := by
  intro n
  induction n with
  | zero =>
    intro toScrape visited scraped hmeas _ _ p hp
    have hts : toScrape = [] := by
      cases toScrape with
      | nil => rfl
      | cons x xs => simp at hmeas
    subst hts
    rw [enhLoop] at hp
    exact Or.inl hp
  | succ n ih =>
    intro toScrape visited scraped hmeas hne hsub p hp
    cases toScrape with
    | nil =>
      rw [enhLoop] at hp
      exact Or.inl hp
    | cons current rest =>
      rw [enhLoop] at hp
      by_cases hcap : maxPages ≤ scraped.length
      · rw [if_pos hcap] at hp
        exact Or.inl hp
      · rw [if_neg hcap] at hp
        by_cases hv : current ∈ visited
        · rw [if_pos hv] at hp
          refine ih rest visited scraped ?_ hne (fun u hu => hsub u (by simp [hu])) p hp
          simp only [List.length_cons] at hmeas
          omega
        · rw [if_neg hv] at hp
          have hlen0 : scraped.length ≠ 0 := by
            intro hc
            exact hne (List.length_eq_zero.mp hc)
          have hng := processEnhAnchors_no_growth current depth scraped.length
            (current :: visited) (fun hc => hlen0 hc.2) (fetchE current).anchors [] rest
          rw [show (let visited := current :: visited;
                let lt := processEnhAnchors current depth scraped.length visited
                  (fetchE current).anchors [] rest
                enhLoop fetchE depth maxPages lt.2 visited
                  (scraped ++ [⟨current, lt.1.take 30⟩])) =
              enhLoop fetchE depth maxPages
                (processEnhAnchors current depth scraped.length (current :: visited)
                  (fetchE current).anchors [] rest).2 (current :: visited)
                (scraped ++ [⟨current,
                  ((processEnhAnchors current depth scraped.length (current :: visited)
                    (fetchE current).anchors [] rest).1.take 30)⟩]) from rfl] at hp
          rw [hng] at hp
          have hrec := ih rest (current :: visited)
            (scraped ++ [⟨current,
              ((processEnhAnchors current depth scraped.length (current :: visited)
                (fetchE current).anchors [] rest).1.take 30)⟩])
            (by simp only [List.length_cons, List.length_append, List.length_singleton, List.length_nil] at hmeas ⊢; omega)
            (by simp)
            (fun u hu => hsub u (by simp [hu]))
            p hp
          rcases hrec with h | h
          · rcases List.mem_append.mp h with h | h
            · exact Or.inl h
            · right
              have hpeq := List.mem_singleton.mp h
              rw [hpeq]
              exact hsub current (by simp)
          · exact Or.inr h

/-- With `depth ≤ 1` the frontier never grows, so the job collects at
most the initial frontier. -/
lemma enhLoop_length_of_depth_le_one (fetchE : String → EnhPageData) (depth maxPages : Nat)
    (hdep : depth ≤ 1) :
    ∀ (toScrape visited : List String) (scraped : List EnhPage),
      (enhLoop fetchE depth maxPages toScrape visited scraped).length ≤
        scraped.length + toScrape.length := by
  intro toScrape
  induction toScrape with
  | nil =>
    intro visited scraped
    rw [enhLoop]
    simp
  | cons current rest ih =>
    intro visited scraped
    rw [enhLoop]
    by_cases hcap : maxPages ≤ scraped.length
    · rw [if_pos hcap]
      simp
    · rw [if_neg hcap]
      by_cases hv : current ∈ visited
      · rw [if_pos hv]
        have := ih visited scraped
        simp only [List.length_cons]
        omega
      · rw [if_neg hv]
        have hng := processEnhAnchors_no_growth current depth scraped.length
          (current :: visited) (fun hc => by omega) (fetchE current).anchors [] rest
        rw [show (let visited := current :: visited;
              let lt := processEnhAnchors current depth scraped.length visited
                (fetchE current).anchors [] rest
              enhLoop fetchE depth maxPages lt.2 visited
                (scraped ++ [⟨current, lt.1.take 30⟩])) =
            enhLoop fetchE depth maxPages
              (processEnhAnchors current depth scraped.length (current :: visited)
                (fetchE current).anchors [] rest).2 (current :: visited)
              (scraped ++ [⟨current,
                ((processEnhAnchors current depth scraped.length (current :: visited)
                  (fetchE current).anchors [] rest).1.take 30)⟩]) from rfl]
        rw [hng]
        have := ih (current :: visited)
          (scraped ++ [⟨current,
            ((processEnhAnchors current depth scraped.length (current :: visited)
              (fetchE current).anchors [] rest).1.take 30)⟩])
        simp only [List.length_append, List.length_singleton, List.length_nil, List.length_cons] at this ⊢
        omega

/-- **C6 (amended).** In the enhanced crawl of `src/main.py`, the
frontier is extended only from the anchor loop of the FIRST fetched
page (the seed) and only while `depth > 1` and no page has been
collected yet: every collected page's URL is the seed itself or a
same-host candidate href of the seed's page, and with `depth ≤ 1` at
most one page is collected.  (In the round-based
`simple_scraper.scrape_website`, by contrast, every page of a round
contributes links — see the counterexample.) -/
theorem enh_frontier_only_from_first_page (fetchE : String → EnhPageData) (seed : String)
    (depth maxPages : Nat) :
    (∀ p ∈ enhScrape fetchE seed depth maxPages,
        p.url = seed ∨ p.url ∈ candidateHrefs seed (fetchE seed).anchors) ∧
      (depth ≤ 1 → (enhScrape fetchE seed depth maxPages).length ≤ 1) := by
  constructor
  · intro p hp
    unfold enhScrape at hp
    rw [enhLoop] at hp
    by_cases hcap : maxPages ≤ 0
    · rw [if_pos (by simpa using hcap)] at hp
      simp at hp
    · rw [if_neg (by simpa using hcap)] at hp
      rw [if_neg (by simp)] at hp
      rw [show (let visited := seed :: [];
            let lt := processEnhAnchors seed depth (List.length ([] : List EnhPage)) visited
              (fetchE seed).anchors [] []
            enhLoop fetchE depth maxPages lt.2 visited
              (([] : List EnhPage) ++ [⟨seed, lt.1.take 30⟩])) =
          enhLoop fetchE depth maxPages
            (processEnhAnchors seed depth 0 [seed] (fetchE seed).anchors [] []).2 [seed]
            [⟨seed,
              ((processEnhAnchors seed depth 0 [seed] (fetchE seed).anchors [] []).1.take 30)⟩]
          from rfl] at hp
      have hsub : ∀ u ∈ (processEnhAnchors seed depth 0 [seed] (fetchE seed).anchors [] []).2,
          u ∈ candidateHrefs seed (fetchE seed).anchors := by
        intro u hu
        rcases processEnhAnchors_additions_sub seed depth 0 [seed] (fetchE seed).anchors [] [] u hu
          with h | h
        · simp at h
        · exact h
      have hrec := enhLoop_pages_after_first fetchE depth maxPages
        (· ∈ candidateHrefs seed (fetchE seed).anchors)
        ((processEnhAnchors seed depth 0 [seed] (fetchE seed).anchors [] []).2.length + maxPages)
        (processEnhAnchors seed depth 0 [seed] (fetchE seed).anchors [] []).2 [seed]
        [⟨seed, ((processEnhAnchors seed depth 0 [seed] (fetchE seed).anchors [] []).1.take 30)⟩]
        (by simp only [List.length_singleton]; omega)
        (by simp)
        hsub p hp
      rcases hrec with h | h
      · left
        have := List.mem_singleton.mp h
        rw [this]
      · exact Or.inr h
  · intro hdep
    unfold enhScrape
    have := enhLoop_length_of_depth_le_one fetchE depth maxPages hdep [seed] [] []
    simpa using this

/-- Witness for the amended first-page-only theorem at `depth = 1`. -/
theorem enh_frontier_witness :
    (1 : Nat) ≤ 1 ∧
      (enhScrape (fun _ => ⟨[]⟩) "https://a.com/" 1 5).length ≤ 1 :=
  ⟨le_refl 1,
    (enh_frontier_only_from_first_page (fun _ => ⟨[]⟩) "https://a.com/" 1 5).2 (le_refl 1)⟩

/-! ## Idempotence of `normalize_url`: supporting lemmas

The amended idempotence claim is settled by re-parsing the serialised
canonical form and showing the components come back unchanged (up to a
leading `/` CPython may add to the path), under hypotheses excluding
the genuinely non-idempotent inputs. -/

lemma breakOn_decomp (p : Char → Bool) :
    ∀ l : List Char, (breakOn p l).1 ++ (breakOn p l).2 = l := by
  intro l
  induction l with
  | nil => rfl
  | cons c cs ih =>
    rw [breakOn]
    split
    · rfl
    · simpa using ih

lemma breakOn_fst_not (p : Char → Bool) :
    ∀ l : List Char, ∀ c ∈ (breakOn p l).1, p c = false := by
  intro l
  induction l with
  | nil => intro c hc; simp [breakOn] at hc
  | cons d ds ih =>
    intro c hc
    rw [breakOn] at hc
    split at hc
    · simp at hc
    · rename_i hd
      simp only [List.mem_cons] at hc
      rcases hc with hc | hc
      · rw [hc]
        exact Bool.eq_false_iff.mpr hd
      · exact ih c hc

lemma breakOn_of_forall (p : Char → Bool) :
    ∀ l : List Char, (∀ c ∈ l, p c = false) → breakOn p l = (l, []) := by
  intro l
  induction l with
  | nil => intro _; rfl
  | cons c cs ih =>
    intro h
    rw [breakOn]
    rw [if_neg (by simp [h c (by simp)])]
    rw [ih fun x hx => h x (by simp [hx])]

lemma breakOn_append_of_forall (p : Char → Bool) :
    ∀ (xs ys : List Char), (∀ c ∈ xs, p c = false) →
      breakOn p (xs ++ ys) = (xs ++ (breakOn p ys).1, (breakOn p ys).2) := by
  intro xs
  induction xs with
  | nil => intro ys _; simp
  | cons c cs ih =>
    intro ys h
    rw [List.cons_append, breakOn]
    rw [if_neg (by simp [h c (by simp)])]
    rw [ih ys fun x hx => h x (by simp [hx])]
    rfl

lemma breakOn_cons_pos (p : Char → Bool) {c : Char} (hc : p c = true) (l : List Char) :
    breakOn p (c :: l) = ([], c :: l) := by
  rw [breakOn, if_pos hc]

lemma mem_of_breakOn_fst (p : Char → Bool) {l : List Char} {c : Char}
    (h : c ∈ (breakOn p l).1) : c ∈ l := by
  rw [← breakOn_decomp p l]
  exact List.mem_append_left _ h

lemma mem_of_breakOn_snd (p : Char → Bool) {l : List Char} {c : Char}
    (h : c ∈ (breakOn p l).2) : c ∈ l := by
  rw [← breakOn_decomp p l]
  exact List.mem_append_right _ h

/-- `Char` order is the order of the underlying code points. -/
lemma char_le_iff {a b : Char} : a ≤ b ↔ a.toNat ≤ b.toNat := Iff.rfl

/-- `Char.ofNat` of a valid code point keeps the code point. -/
lemma toNat_ofNat_of_valid {n : Nat} (h : n.isValidChar) : (Char.ofNat n).toNat = n := by
  unfold Char.ofNat
  rw [dif_pos h]
  rfl

/-- Lower-casing either fixes the character or produces a character in
the lower-case range `97`–`122` shifted by 32. -/
lemma pyLower_cases (c : Char) :
    pyLower c = c ∨
      (97 ≤ (pyLower c).toNat ∧ (pyLower c).toNat ≤ 122 ∧ (pyLower c).toNat = c.toNat + 32) := by
  unfold pyLower
  split
  · rename_i h
    right
    have h1 : (65 : Nat) ≤ c.toNat := char_le_iff.mp h.1
    have h2 : c.toNat ≤ 90 := char_le_iff.mp h.2
    have hv : (c.toNat + 32).isValidChar := Or.inl (by omega)
    rw [toNat_ofNat_of_valid hv]
    omega
  · exact Or.inl rfl

/-- Lower-casing is idempotent. -/
lemma pyLower_idem (c : Char) : pyLower (pyLower c) = pyLower c := by
  rcases pyLower_cases c with h | ⟨h1, h2, _⟩
  · rw [h, h]
  · set d := pyLower c with hd
    show pyLower d = d
    unfold pyLower
    rw [if_neg]
    intro hcon
    have h3 : d.toNat ≤ ('Z' : Char).toNat := char_le_iff.mp hcon.2
    have hz : ('Z' : Char).toNat = 90 := by decide
    omega

/-- A character that lower-cases to something outside the lower-case
letter range was already that character. -/
lemma eq_of_pyLower_eq {c d : Char} (hd : d.toNat < 97 ∨ 122 < d.toNat)
    (h : pyLower c = d) : c = d := by
  rcases pyLower_cases c with hc | ⟨h1, h2, _⟩
  · rw [← hc, h]
  · rw [h] at h1 h2
    omega

lemma dropWhile_dropWhile (p : Char → Bool) (l : List Char) :
    (l.dropWhile p).dropWhile p = l.dropWhile p := by
  have h := List.head?_dropWhile_not p l
  cases hd : l.dropWhile p with
  | nil => rfl
  | cons c t =>
    rw [hd] at h
    simp only [List.head?_cons] at h
    rw [List.dropWhile_cons_of_neg (by simp [h])]

/-- Stripping trailing slashes is idempotent. -/
lemma rstripSlash_idem (l : List Char) : rstripSlash (rstripSlash l) = rstripSlash l := by
  unfold rstripSlash
  rw [List.reverse_reverse, dropWhile_dropWhile]

/-- `pathStep` is idempotent. -/
lemma pathStep_idem (l : List Char) : pathStep (pathStep l) = pathStep l := by
  unfold pathStep
  split
  · rw [if_pos (by decide)]
  · rename_i h
    rw [rstripSlash_idem]
    rw [if_neg h]

/-- The stripped path is an initial segment of the path. -/
lemma rstripSlash_append (l : List Char) :
    rstripSlash l ++ (l.reverse.takeWhile (· = '/')).reverse = l := by
  unfold rstripSlash
  rw [← List.reverse_append, List.takeWhile_append_dropWhile, List.reverse_reverse]

lemma mem_of_rstripSlash {l : List Char} {c : Char} (h : c ∈ rstripSlash l) : c ∈ l := by
  rw [← rstripSlash_append l]
  exact List.mem_append_left _ h

lemma mem_of_pathStep {l : List Char} {c : Char} (h : c ∈ pathStep l) : c ∈ l ∨ c = '/' := by
  unfold pathStep at h
  split at h
  · simp at h
    exact Or.inr h
  · exact Or.inl (mem_of_rstripSlash h)

/-- `pathStep` keeps a leading slash (its result is nonempty, and when
the input starts with `/` so does the result). -/
lemma pathStep_head_slash {l : List Char} (h : l.head? = some '/') :
    (pathStep l).head? = some '/' := by
  unfold pathStep
  split
  · rfl
  · rename_i hne
    cases hs : rstripSlash l with
    | nil => exact absurd hs hne
    | cons c t =>
      have := rstripSlash_append l
      rw [hs] at this
      rw [← this] at h
      simp only [List.cons_append, List.head?_cons, Option.some.injEq] at h ⊢
      exact h

lemma pathStep_ne_nil (l : List Char) : pathStep l ≠ [] := by
  unfold pathStep
  split
  · simp
  · assumption

/-- A character in the lower-case letter range. -/
lemma asciiLower_of_range {c : Char} (h1 : 97 ≤ c.toNat) (h2 : c.toNat ≤ 122) :
    asciiLower c = true := by
  unfold asciiLower
  have hna : ('a' : Char).toNat = 97 := by decide
  have hnz : ('z' : Char).toNat = 122 := by decide
  have ha : ('a' : Char) ≤ c := char_le_iff.mpr (by omega)
  have hz : c ≤ ('z' : Char) := char_le_iff.mpr (by omega)
  simp [ha, hz]

lemma asciiAlpha_pyLower {c : Char} (h : asciiAlpha c = true) : asciiAlpha (pyLower c) = true := by
  rcases pyLower_cases c with hc | ⟨h1, h2, _⟩
  · rw [hc]
    exact h
  · unfold asciiAlpha
    simp [asciiLower_of_range h1 h2]

lemma schemeChar_pyLower {c : Char} (h : schemeChar c = true) : schemeChar (pyLower c) = true := by
  rcases pyLower_cases c with hc | ⟨h1, h2, _⟩
  · rw [hc]
    exact h
  · unfold schemeChar
    unfold asciiAlpha
    simp [asciiLower_of_range h1 h2]

/-- A non-letter character is absent from a lower-cased list unless it
was present before. -/
lemma not_mem_map_pyLower {d : Char} (hd : d.toNat < 97 ∨ 122 < d.toNat) {l : List Char}
    (h : d ∉ l) : d ∉ l.map pyLower := by
  intro hml
  rcases List.mem_map.mp hml with ⟨y, hy, hyd⟩
  rw [← eq_of_pyLower_eq hd hyd] at h
  exact h hy

/-- Lower-casing a list twice equals lower-casing once. -/
lemma map_pyLower_idem (l : List Char) : (l.map pyLower).map pyLower = l.map pyLower := by
  rw [List.map_map]
  exact List.map_congr_left fun c _ => pyLower_idem c

/-- Netloc delimiters survive nowhere in a lower-cased delimiter-free
list. -/
lemma netlocDelim_map_pyLower {l : List Char} (h : ∀ x ∈ l, netlocDelim x = false) :
    ∀ x ∈ l.map pyLower, netlocDelim x = false := by
  intro x hx
  rcases List.mem_map.mp hx with ⟨y, hy, rfl⟩
  rcases pyLower_cases y with hc | ⟨h1, h2, _⟩
  · rw [hc]
    exact h y hy
  · unfold netlocDelim
    have hs : pyLower y ≠ '/' := by
      intro hcon
      rw [hcon] at h1
      have : ('/' : Char).toNat = 47 := by decide
      omega
    have hq : pyLower y ≠ '?' := by
      intro hcon
      rw [hcon] at h1
      have : ('?' : Char).toNat = 63 := by decide
      omega
    have hh : pyLower y ≠ '#' := by
      intro hcon
      rw [hcon] at h1
      have : ('#' : Char).toNat = 35 := by decide
      omega
    simp [hs, hq, hh]

lemma splitOff_of_not_mem {ch : Char} {l : List Char} (h : ch ∉ l) : splitOff ch l = (l, []) := by
  unfold splitOff
  rw [breakOn_of_forall _ l fun c hc => by
    simp only [decide_eq_false_iff_not]
    rintro rfl
    exact h hc]

lemma splitOff_append {ch : Char} {xs ys : List Char} (h : ch ∉ xs) :
    splitOff ch (xs ++ ch :: ys) = (xs, ys) := by
  unfold splitOff
  rw [breakOn_append_of_forall _ xs (ch :: ys) fun c hc => by
    simp only [decide_eq_false_iff_not]
    rintro rfl
    exact h hc]
  rw [breakOn_cons_pos (fun x => decide (x = ch)) (by simp) ys]
  simp

lemma splitNetloc_of_ne (rest : List Char) (h : rest.take 2 ≠ ['/', '/']) :
    splitNetloc rest = ([], rest) := by
  unfold splitNetloc
  rw [if_neg h]

lemma splitNetloc_slash2 (l : List Char) :
    splitNetloc ('/' :: '/' :: l) = breakOn netlocDelim l := rfl

lemma splitScheme_valid {a : Char} {t rest : List Char}
    (ha : asciiAlpha a = true) (ht : ∀ x ∈ t, schemeChar x = true)
    (hlow : (a :: t).map pyLower = a :: t) (hcolon : ':' ∉ a :: t) :
    splitScheme ((a :: t) ++ ':' :: rest) = (a :: t, rest) := by
  unfold splitScheme
  rw [breakOn_append_of_forall _ (a :: t) (':' :: rest) fun c hc => by
    simp only [decide_eq_false_iff_not]
    rintro rfl
    exact hcolon hc]
  rw [breakOn_cons_pos (fun x => decide (x = ':')) (by simp) rest]
  simp only [List.append_nil]
  rw [if_pos ⟨ha, List.all_eq_true.mpr ht⟩]
  rw [hlow]

lemma removeTabsNewlines_of_not_mem {l : List Char}
    (h : ∀ c ∈ l, ¬(c = '\t' ∨ c = '\r' ∨ c = '\n')) : removeTabsNewlines l = l := by
  unfold removeTabsNewlines
  exact List.filter_eq_self.mpr fun c hc => by simp [h c hc]

lemma asciiAlpha_range {c : Char} (h : asciiAlpha c = true) : 65 ≤ c.toNat := by
  unfold asciiAlpha asciiLower asciiUpper at h
  simp only [Bool.or_eq_true, decide_eq_true_eq] at h
  have hna : ('a' : Char).toNat = 97 := by decide
  have hnA : ('A' : Char).toNat = 65 := by decide
  rcases h with ⟨h1, _⟩ | ⟨h1, _⟩
  · have := char_le_iff.mp h1
    omega
  · have := char_le_iff.mp h1
    omega

lemma asciiAlpha_not_c0 {c : Char} (h : asciiAlpha c = true) : c0ControlOrSpace c = false := by
  have := asciiAlpha_range h
  unfold c0ControlOrSpace
  simp only [decide_eq_false_iff_not]
  omega

lemma asciiAlpha_clean {c : Char} (h : asciiAlpha c = true) :
    ¬(c = '\t' ∨ c = '\r' ∨ c = '\n') := by
  rintro (rfl | rfl | rfl) <;> exact absurd h (by decide)

lemma schemeChar_clean {c : Char} (h : schemeChar c = true) :
    ¬(c = '\t' ∨ c = '\r' ∨ c = '\n') := by
  rintro (rfl | rfl | rfl) <;> exact absurd h (by decide)

lemma breakOn_cons_neg (p : Char → Bool) {c : Char} (hc : p c = false) (l : List Char) :
    breakOn p (c :: l) = (c :: (breakOn p l).1, (breakOn p l).2) := by
  rw [breakOn, if_neg (by simp [hc])]

lemma breakOn_snd_head (p : Char → Bool) :
    ∀ l : List Char, (breakOn p l).2 = [] ∨
      ∃ d r, (breakOn p l).2 = d :: r ∧ p d = true := by
  intro l
  induction l with
  | nil => exact Or.inl rfl
  | cons c cs ih =>
    by_cases hc : p c = true
    · rw [breakOn_cons_pos p hc]
      exact Or.inr ⟨c, cs, rfl, hc⟩
    · rw [breakOn_cons_neg p (Bool.eq_false_iff.mpr hc)]
      exact ih

lemma splitOff_fst_eq (ch : Char) (l : List Char) :
    (splitOff ch l).1 = (breakOn (· = ch) l).1 := by
  unfold splitOff
  rcases hbk : breakOn (· = ch) l with ⟨a, b⟩
  cases b <;> rfl

lemma splitOff_fst_not (ch : Char) (l : List Char) : ch ∉ (splitOff ch l).1 := by
  rw [splitOff_fst_eq]
  intro h
  have := breakOn_fst_not (· = ch) l ch h
  simp at this

lemma mem_of_splitOff_fst {ch c : Char} {l : List Char}
    (h : c ∈ (splitOff ch l).1) : c ∈ l := by
  rw [splitOff_fst_eq] at h
  exact mem_of_breakOn_fst _ h

lemma mem_of_splitOff_snd {ch c : Char} {l : List Char}
    (h : c ∈ (splitOff ch l).2) : c ∈ l := by
  unfold splitOff at h
  rcases hbk : breakOn (· = ch) l with ⟨a, b⟩
  rw [hbk] at h
  match b, h with
  | x :: bs, h =>
    apply mem_of_breakOn_snd (· = ch) (l := l)
    rw [hbk]
    exact List.mem_cons_of_mem x h
  | [], h => simp at h

lemma splitOff_cons_self (ch : Char) (rest : List Char) :
    splitOff ch (ch :: rest) = ([], rest) := by
  unfold splitOff
  rw [breakOn_cons_pos (fun x => decide (x = ch)) (by simp) rest]

lemma splitOff_fst_head_of_ne {ch d : Char} (h : d ≠ ch) (rest : List Char) :
    (splitOff ch (d :: rest)).1.head? = some d := by
  rw [splitOff_fst_eq, breakOn_cons_neg _ (by simp [h]) rest]
  rfl

lemma splitScheme_eq_nil_of_nil {url pre : List Char}
    (hbk : breakOn (· = ':') url = (pre, [])) : splitScheme url = ([], url) := by
  unfold splitScheme
  rw [hbk]

lemma splitScheme_eq_nil_of_empty_pre {url : List Char} {x : Char} {post : List Char}
    (hbk : breakOn (· = ':') url = ([], x :: post)) : splitScheme url = ([], url) := by
  unfold splitScheme
  rw [hbk]

lemma splitScheme_eq_of_good {url : List Char} {p : Char} {ps : List Char} {x : Char}
    {post : List Char} (hbk : breakOn (· = ':') url = (p :: ps, x :: post))
    (hcond : asciiAlpha p = true ∧ ps.all schemeChar = true) :
    splitScheme url = ((p :: ps).map pyLower, post) := by
  unfold splitScheme
  rw [hbk]
  show (if asciiAlpha p = true ∧ ps.all schemeChar = true
      then ((p :: ps).map pyLower, post) else ([], url)) = ((p :: ps).map pyLower, post)
  rw [if_pos hcond]

lemma splitScheme_eq_of_bad {url : List Char} {p : Char} {ps : List Char} {x : Char}
    {post : List Char} (hbk : breakOn (· = ':') url = (p :: ps, x :: post))
    (hcond : ¬(asciiAlpha p = true ∧ ps.all schemeChar = true)) :
    splitScheme url = ([], url) := by
  unfold splitScheme
  rw [hbk]
  show (if asciiAlpha p = true ∧ ps.all schemeChar = true
      then ((p :: ps).map pyLower, post) else ([], url)) = ([], url)
  rw [if_neg hcond]

lemma mem_of_splitScheme_snd {c : Char} {url : List Char}
    (h : c ∈ (splitScheme url).2) : c ∈ url := by
  rcases hbk : breakOn (· = ':') url with ⟨pre, b⟩
  match pre, b with
  | pre, [] =>
    rw [splitScheme_eq_nil_of_nil hbk] at h
    exact h
  | [], x :: post =>
    rw [splitScheme_eq_nil_of_empty_pre hbk] at h
    exact h
  | p :: ps, x :: post =>
    by_cases hcond : asciiAlpha p = true ∧ ps.all schemeChar = true
    · rw [splitScheme_eq_of_good hbk hcond] at h
      apply mem_of_breakOn_snd (· = ':') (l := url)
      rw [hbk]
      exact List.mem_cons_of_mem x h
    · rw [splitScheme_eq_of_bad hbk hcond] at h
      exact h

lemma splitScheme_fst_spec (url : List Char) :
    (splitScheme url).1 = [] ∨
      ∃ a t, (splitScheme url).1 = a :: t ∧ asciiAlpha a = true ∧
        (∀ x ∈ t, schemeChar x = true) ∧ (a :: t).map pyLower = a :: t := by
  rcases hbk : breakOn (· = ':') url with ⟨pre, b⟩
  match pre, b with
  | pre, [] => rw [splitScheme_eq_nil_of_nil hbk]; exact Or.inl rfl
  | [], x :: post => rw [splitScheme_eq_nil_of_empty_pre hbk]; exact Or.inl rfl
  | p :: ps, x :: post =>
    by_cases hcond : asciiAlpha p = true ∧ ps.all schemeChar = true
    · rw [splitScheme_eq_of_good hbk hcond]
      refine Or.inr ⟨pyLower p, ps.map pyLower, by simp, asciiAlpha_pyLower hcond.1, ?_, ?_⟩
      · intro y hy
        rcases List.mem_map.mp hy with ⟨z, hz, rfl⟩
        exact schemeChar_pyLower (List.all_eq_true.mp hcond.2 z hz)
      · show ((p :: ps).map pyLower).map pyLower = (p :: ps).map pyLower
        exact map_pyLower_idem _
    · rw [splitScheme_eq_of_bad hbk hcond]
      exact Or.inl rfl

lemma splitNetloc_fst_delim (rest : List Char) :
    ∀ x ∈ (splitNetloc rest).1, netlocDelim x = false := by
  unfold splitNetloc
  split
  · exact breakOn_fst_not netlocDelim _
  · intro x hx
    simp at hx

lemma mem_of_splitNetloc_fst {c : Char} {rest : List Char}
    (h : c ∈ (splitNetloc rest).1) : c ∈ rest := by
  unfold splitNetloc at h
  split at h
  · exact List.mem_of_mem_drop (mem_of_breakOn_fst _ h)
  · simp at h

lemma mem_of_splitNetloc_snd {c : Char} {rest : List Char}
    (h : c ∈ (splitNetloc rest).2) : c ∈ rest := by
  unfold splitNetloc at h
  split at h
  · exact List.mem_of_mem_drop (mem_of_breakOn_snd _ h)
  · exact h

lemma rstripSlash_cons_of_fix {l : List Char} (hfix : rstripSlash l = l) (hne : l ≠ [])
    (c : Char) : rstripSlash (c :: l) = c :: l := by
  have hrevfix : l.reverse.dropWhile (· = '/') = l.reverse := by
    have h := congrArg List.reverse hfix
    rwa [rstripSlash, List.reverse_reverse] at h
  rcases hrev : l.reverse with _ | ⟨d, ds⟩
  · exact absurd (by simpa using hrev) hne
  · have hd : ¬(d = '/') := by
      intro hcon
      rw [hrev, List.dropWhile_cons_of_pos (by simp [hcon])] at hrevfix
      have h1 : (List.dropWhile (· = '/') ds).length ≤ ds.length :=
        (List.dropWhile_suffix (· = '/')).length_le
      rw [hrevfix] at h1
      simp at h1
    have h2 : (c :: l).reverse = d :: (ds ++ [c]) := by
      rw [List.reverse_cons, hrev]
      simp
    unfold rstripSlash
    rw [h2, List.dropWhile_cons_of_neg (by simp [hd]), ← h2, List.reverse_reverse]

/-- Tab/CR/LF-freedom survives lower-casing. -/
lemma clean_map_pyLower {l : List Char} (h : ∀ x ∈ l, ¬(x = '\t' ∨ x = '\r' ∨ x = '\n')) :
    ∀ x ∈ l.map pyLower, ¬(x = '\t' ∨ x = '\r' ∨ x = '\n') := by
  intro x hx
  rcases List.mem_map.mp hx with ⟨y, hy, rfl⟩
  rcases pyLower_cases y with hc | ⟨h1, h2, _⟩
  · rw [hc]
    exact h y hy
  · rintro (hcon | hcon | hcon) <;>
      · rw [hcon] at h1
        revert h1
        decide

lemma head?_append_of_ne_nil {a : List Char} (b : List Char) (h : a ≠ []) :
    (a ++ b).head? = a.head? := by
  cases a with
  | nil => exact absurd rfl h
  | cons x xs => rfl

lemma splitParams_eq_no_semi {s b1 : List Char}
    (hbk : breakOn (· = ';') ((breakOn (· = '/') s.reverse).1.reverse) = (b1, [])) :
    splitParams s = (s, []) := by
  simp only [splitParams]
  rw [hbk]

lemma splitParams_eq_semi {s b1 : List Char} {x : Char} {b2 : List Char}
    (hbk : breakOn (· = ';') ((breakOn (· = '/') s.reverse).1.reverse) = (b1, x :: b2)) :
    splitParams s = ((breakOn (· = '/') s.reverse).2.reverse ++ b1, b2) := by
  simp only [splitParams]
  rw [hbk]

lemma mem_of_splitParams_fst {c : Char} {s : List Char}
    (h : c ∈ (splitParams s).1) : c ∈ s := by
  rcases hbk : breakOn (· = ';') ((breakOn (· = '/') s.reverse).1.reverse) with ⟨b1, b⟩
  match b, hbk with
  | [], hbk =>
    rw [splitParams_eq_no_semi hbk] at h
    exact h
  | x :: b2, hbk =>
    rw [splitParams_eq_semi hbk] at h
    rcases List.mem_append.mp h with h1 | h1
    · have : c ∈ (breakOn (· = '/') s.reverse).2 := List.mem_reverse.mp h1
      have := mem_of_breakOn_snd _ this
      exact List.mem_reverse.mp this
    · have hb1 : c ∈ (breakOn (· = ';') ((breakOn (· = '/') s.reverse).1.reverse)).1 := by
        rw [hbk]
        exact h1
      have := mem_of_breakOn_fst _ hb1
      have : c ∈ (breakOn (· = '/') s.reverse).1 := List.mem_reverse.mp this
      have := mem_of_breakOn_fst _ this
      exact List.mem_reverse.mp this

lemma splitParams_fst_head {s : List Char} (hhead : s.head? = some '/') :
    (splitParams s).1.head? = some '/' := by
  rcases hbk : breakOn (· = ';') ((breakOn (· = '/') s.reverse).1.reverse) with ⟨b1, b⟩
  match b, hbk with
  | [], hbk =>
    rw [splitParams_eq_no_semi hbk]
    exact hhead
  | x :: b2, hbk =>
    rw [splitParams_eq_semi hbk]
    have hsne : s ≠ [] := by
      intro hcon
      rw [hcon] at hhead
      simp at hhead
    have hmem : '/' ∈ s.reverse := by
      rw [List.mem_reverse]
      cases s with
      | nil => exact absurd rfl hsne
      | cons y ys =>
        simp only [List.head?_cons, Option.some.injEq] at hhead
        rw [hhead]
        exact List.mem_cons_self _ _
    have hsnd_ne : (breakOn (· = '/') s.reverse).2 ≠ [] := by
      intro hcon
      have hfst : (breakOn (· = '/') s.reverse).1 = s.reverse := by
        have hdec := breakOn_decomp (· = '/') s.reverse
        rwa [hcon, List.append_nil] at hdec
      have := breakOn_fst_not (· = '/') s.reverse '/' (by rw [hfst]; exact hmem)
      simp at this
    have hrevne : (breakOn (· = '/') s.reverse).2.reverse ≠ [] := by
      simpa using hsnd_ne
    rw [head?_append_of_ne_nil _ hrevne]
    have hdecs : (breakOn (· = '/') s.reverse).2.reverse ++
        (breakOn (· = '/') s.reverse).1.reverse = s := by
      rw [← List.reverse_append, breakOn_decomp, List.reverse_reverse]
    rw [← hdecs] at hhead
    rw [head?_append_of_ne_nil _ hrevne] at hhead
    exact hhead

lemma pyUrlparse_eq_no_params {input : List Char}
    (h : ¬((pyUrlsplit input).scheme ∈ usesParams ∧ ';' ∈ (pyUrlsplit input).path)) :
    pyUrlparse input = ⟨(pyUrlsplit input).scheme, (pyUrlsplit input).netloc,
      (pyUrlsplit input).path, [], (pyUrlsplit input).query, (pyUrlsplit input).fragment⟩ := by
  unfold pyUrlparse
  rw [if_neg h]

lemma pyUrlparse_eq_params {input : List Char}
    (h : (pyUrlsplit input).scheme ∈ usesParams ∧ ';' ∈ (pyUrlsplit input).path) :
    pyUrlparse input = ⟨(pyUrlsplit input).scheme, (pyUrlsplit input).netloc,
      (splitParams (pyUrlsplit input).path).1, (splitParams (pyUrlsplit input).path).2,
      (pyUrlsplit input).query, (pyUrlsplit input).fragment⟩ := by
  unfold pyUrlparse
  rw [if_pos h]

/-- The shape invariant of a normalized parse: what `normalize_url`'s
output components always look like.  It is exactly what the re-parse of
the re-serialised URL needs. -/
structure NormForm (c : ParseResult) : Prop where
  scheme_shape : ∃ a t, c.scheme = a :: t ∧ asciiAlpha a = true ∧ ∀ x ∈ t, schemeChar x = true
  scheme_lower : c.scheme.map pyLower = c.scheme
  netloc_delim : ∀ x ∈ c.netloc, netlocDelim x = false
  netloc_lower : c.netloc.map pyLower = c.netloc
  netloc_clean : ∀ x ∈ c.netloc, ¬(x = '\t' ∨ x = '\r' ∨ x = '\n')
  path_fix : pathStep c.path = c.path
  path_no_q : '?' ∉ c.path
  path_no_h : '#' ∉ c.path
  path_clean : ∀ x ∈ c.path, ¬(x = '\t' ∨ x = '\r' ∨ x = '\n')
  path_slash : c.netloc ≠ [] → c.path.head? = some '/'
  query_no_h : '#' ∉ c.query
  query_clean : ∀ x ∈ c.query, ¬(x = '\t' ∨ x = '\r' ∨ x = '\n')
  frag : c.fragment = []

/-- The component-wise description of `normalizeParsed`. -/
lemma normalizeParsed_eq (p : ParseResult) :
    normalizeParsed p =
      ⟨if p.scheme = [] then "https".toList else p.scheme,
       if "www.".toList.isPrefixOf (p.netloc.map pyLower) ∧ 4 < (p.netloc.map pyLower).length
         then (p.netloc.map pyLower).drop 4 else p.netloc.map pyLower,
       pathStep p.path, p.params, p.query, []⟩ := by
  unfold normalizeParsed
  by_cases h1 : p.scheme = [] <;>
    by_cases h2 : "www.".toList.isPrefixOf (p.netloc.map pyLower) ∧
        4 < (p.netloc.map pyLower).length <;>
    simp [h1, h2]

lemma removeTabsNewlines_clean (l : List Char) :
    ∀ x ∈ removeTabsNewlines l, ¬(x = '\t' ∨ x = '\r' ∨ x = '\n') := by
  intro x hx
  have h := List.of_mem_filter (p := fun c => ¬(c = '\t' ∨ c = '\r' ∨ c = '\n')) hx
  simpa using h

lemma pyUrlsplit_scheme_spec (input : List Char) :
    (pyUrlsplit input).scheme = [] ∨
      ∃ a t, (pyUrlsplit input).scheme = a :: t ∧ asciiAlpha a = true ∧
        (∀ x ∈ t, schemeChar x = true) ∧ (a :: t).map pyLower = a :: t :=
  splitScheme_fst_spec _

lemma pyUrlsplit_netloc_delim (input : List Char) :
    ∀ x ∈ (pyUrlsplit input).netloc, netlocDelim x = false :=
  splitNetloc_fst_delim _

lemma pyUrlsplit_netloc_mem {input : List Char} {x : Char}
    (h : x ∈ (pyUrlsplit input).netloc) :
    x ∈ removeTabsNewlines (input.dropWhile c0ControlOrSpace) :=
  mem_of_splitScheme_snd (mem_of_splitNetloc_fst h)

lemma pyUrlsplit_path_mem {input : List Char} {x : Char}
    (h : x ∈ (pyUrlsplit input).path) :
    x ∈ removeTabsNewlines (input.dropWhile c0ControlOrSpace) :=
  mem_of_splitScheme_snd (mem_of_splitNetloc_snd (mem_of_splitOff_fst (mem_of_splitOff_fst h)))

lemma pyUrlsplit_query_mem {input : List Char} {x : Char}
    (h : x ∈ (pyUrlsplit input).query) :
    x ∈ removeTabsNewlines (input.dropWhile c0ControlOrSpace) :=
  mem_of_splitScheme_snd (mem_of_splitNetloc_snd (mem_of_splitOff_fst (mem_of_splitOff_snd h)))

lemma pyUrlsplit_path_no_h (input : List Char) : '#' ∉ (pyUrlsplit input).path :=
  fun h => splitOff_fst_not '#' _ (mem_of_splitOff_fst h)

lemma pyUrlsplit_path_no_q (input : List Char) : '?' ∉ (pyUrlsplit input).path :=
  splitOff_fst_not '?' _

lemma pyUrlsplit_query_no_h (input : List Char) : '#' ∉ (pyUrlsplit input).query :=
  fun h => splitOff_fst_not '#' _ (mem_of_splitOff_snd h)

/-- After a nonempty netloc, the remaining path (fragment and query
stripped) is empty or starts with `/`: the netloc scan stopped at a
delimiter, and only `/` survives the query/fragment splits. -/
lemma splitNetloc_path_slash (rest : List Char) (h : (splitNetloc rest).1 ≠ []) :
    (splitOff '?' (splitOff '#' (splitNetloc rest).2).1).1 = [] ∨
      (splitOff '?' (splitOff '#' (splitNetloc rest).2).1).1.head? = some '/' := by
  have hif : rest.take 2 = ['/', '/'] := by
    by_contra hcon
    rw [splitNetloc_of_ne _ hcon] at h
    exact h rfl
  have hnp : splitNetloc rest = breakOn netlocDelim (rest.drop 2) := by
    unfold splitNetloc
    rw [if_pos hif]
  rcases breakOn_snd_head netlocDelim (rest.drop 2) with hnil | ⟨d, r, hdr, hd⟩
  · left
    rw [hnp, hnil]
    rfl
  · have hd3 : (d = '/' ∨ d = '?') ∨ d = '#' := by
      unfold netlocDelim at hd
      simpa using hd
    rw [hnp, hdr]
    rcases hd3 with (rfl | rfl) | rfl
    · right
      have h1 : (splitOff '#' ('/' :: r)).1.head? = some '/' :=
        splitOff_fst_head_of_ne (by decide) r
      rcases hf : (splitOff '#' ('/' :: r)).1 with _ | ⟨e, f⟩
      · rw [hf] at h1
        simp at h1
      · rw [hf] at h1
        simp only [List.head?_cons, Option.some.injEq] at h1
        subst h1
        exact splitOff_fst_head_of_ne (by decide) f
    · left
      have h1 : (splitOff '#' ('?' :: r)).1.head? = some '?' :=
        splitOff_fst_head_of_ne (by decide) r
      rcases hf : (splitOff '#' ('?' :: r)).1 with _ | ⟨e, f⟩
      · rfl
      · rw [hf] at h1
        simp only [List.head?_cons, Option.some.injEq] at h1
        subst h1
        rw [splitOff_cons_self]
    · left
      rw [splitOff_cons_self]
      rfl

lemma pyUrlsplit_path_slash {input : List Char} (h : (pyUrlsplit input).netloc ≠ []) :
    (pyUrlsplit input).path = [] ∨ (pyUrlsplit input).path.head? = some '/' :=
  splitNetloc_path_slash _ h

lemma pyUrlparse_scheme (input : List Char) :
    (pyUrlparse input).scheme = (pyUrlsplit input).scheme := by
  by_cases h : (pyUrlsplit input).scheme ∈ usesParams ∧ ';' ∈ (pyUrlsplit input).path
  · rw [pyUrlparse_eq_params h]
  · rw [pyUrlparse_eq_no_params h]

lemma pyUrlparse_netloc (input : List Char) :
    (pyUrlparse input).netloc = (pyUrlsplit input).netloc := by
  by_cases h : (pyUrlsplit input).scheme ∈ usesParams ∧ ';' ∈ (pyUrlsplit input).path
  · rw [pyUrlparse_eq_params h]
  · rw [pyUrlparse_eq_no_params h]

lemma pyUrlparse_query (input : List Char) :
    (pyUrlparse input).query = (pyUrlsplit input).query := by
  by_cases h : (pyUrlsplit input).scheme ∈ usesParams ∧ ';' ∈ (pyUrlsplit input).path
  · rw [pyUrlparse_eq_params h]
  · rw [pyUrlparse_eq_no_params h]

lemma pyUrlparse_path_eq (input : List Char) :
    (pyUrlparse input).path = (pyUrlsplit input).path ∨
      (pyUrlparse input).path = (splitParams (pyUrlsplit input).path).1 := by
  by_cases hc : (pyUrlsplit input).scheme ∈ usesParams ∧ ';' ∈ (pyUrlsplit input).path
  · right
    rw [pyUrlparse_eq_params hc]
  · left
    rw [pyUrlparse_eq_no_params hc]

lemma pyUrlparse_path_mem {input : List Char} {x : Char}
    (h : x ∈ (pyUrlparse input).path) : x ∈ (pyUrlsplit input).path := by
  rcases pyUrlparse_path_eq input with he | he
  · rwa [he] at h
  · rw [he] at h
    exact mem_of_splitParams_fst h

lemma pyUrlparse_path_slash {input : List Char}
    (h : (pyUrlsplit input).path = [] ∨ (pyUrlsplit input).path.head? = some '/') :
    (pyUrlparse input).path = [] ∨ (pyUrlparse input).path.head? = some '/' := by
  rcases pyUrlparse_path_eq input with he | he
  · rw [he]
    exact h
  · rw [he]
    rcases h with h | h
    · rw [h]
      left
      rfl
    · exact Or.inr (splitParams_fst_head h)

/-- Every normalized parse satisfies the shape invariant. -/
lemma normForm_normalizeParsed (input : List Char) :
    NormForm (normalizeParsed (pyUrlparse input)) := by
  have hclean := removeTabsNewlines_clean (input.dropWhile c0ControlOrSpace)
  have hcs : (normalizeParsed (pyUrlparse input)).scheme =
      if (pyUrlparse input).scheme = [] then "https".toList else (pyUrlparse input).scheme := by
    rw [normalizeParsed_eq]
  have hcn : (normalizeParsed (pyUrlparse input)).netloc =
      if "www.".toList.isPrefixOf ((pyUrlparse input).netloc.map pyLower) ∧
          4 < ((pyUrlparse input).netloc.map pyLower).length
        then ((pyUrlparse input).netloc.map pyLower).drop 4
        else (pyUrlparse input).netloc.map pyLower := by
    rw [normalizeParsed_eq]
  have hcp : (normalizeParsed (pyUrlparse input)).path = pathStep (pyUrlparse input).path := by
    rw [normalizeParsed_eq]
  have hcq : (normalizeParsed (pyUrlparse input)).query = (pyUrlparse input).query := by
    rw [normalizeParsed_eq]
  have hcf : (normalizeParsed (pyUrlparse input)).fragment = [] := by
    rw [normalizeParsed_eq]
  have hndel : ∀ y ∈ (pyUrlparse input).netloc, netlocDelim y = false := by
    intro y hy
    rw [pyUrlparse_netloc] at hy
    exact pyUrlsplit_netloc_delim input y hy
  have hncl : ∀ y ∈ (pyUrlparse input).netloc, ¬(y = '\t' ∨ y = '\r' ∨ y = '\n') := by
    intro y hy
    rw [pyUrlparse_netloc] at hy
    exact hclean y (pyUrlsplit_netloc_mem hy)
  refine ⟨?_, ?_, ?_, ?_, ?_, ?_, ?_, ?_, ?_, ?_, ?_, ?_, hcf⟩
  · -- scheme_shape
    rw [hcs]
    by_cases hsch : (pyUrlparse input).scheme = []
    · rw [if_pos hsch]
      exact ⟨'h', ['t', 't', 'p', 's'], by decide, by decide, by decide⟩
    · rw [if_neg hsch]
      rcases pyUrlsplit_scheme_spec input with hnil | ⟨a, t, heq, ha, ht, _⟩
      · rw [pyUrlparse_scheme] at hsch
        exact absurd hnil hsch
      · exact ⟨a, t, by rw [pyUrlparse_scheme, heq], ha, ht⟩
  · -- scheme_lower
    rw [hcs]
    by_cases hsch : (pyUrlparse input).scheme = []
    · rw [if_pos hsch]
      decide
    · rw [if_neg hsch]
      rcases pyUrlsplit_scheme_spec input with hnil | ⟨a, t, heq, _, _, hlow⟩
      · rw [pyUrlparse_scheme] at hsch
        exact absurd hnil hsch
      · rw [pyUrlparse_scheme, heq]
        exact hlow
  · -- netloc_delim
    intro x hx
    rw [hcn] at hx
    split at hx
    · exact netlocDelim_map_pyLower hndel x (List.mem_of_mem_drop hx)
    · exact netlocDelim_map_pyLower hndel x hx
  · -- netloc_lower
    rw [hcn]
    split
    · rw [← List.map_drop, map_pyLower_idem, List.map_drop]
    · exact map_pyLower_idem _
  · -- netloc_clean
    intro x hx
    rw [hcn] at hx
    split at hx
    · exact clean_map_pyLower hncl x (List.mem_of_mem_drop hx)
    · exact clean_map_pyLower hncl x hx
  · -- path_fix
    rw [hcp]
    exact pathStep_idem _
  · -- path_no_q
    rw [hcp]
    intro hx
    rcases mem_of_pathStep hx with h | h
    · exact pyUrlsplit_path_no_q input (pyUrlparse_path_mem h)
    · exact absurd h (by decide)
  · -- path_no_h
    rw [hcp]
    intro hx
    rcases mem_of_pathStep hx with h | h
    · exact pyUrlsplit_path_no_h input (pyUrlparse_path_mem h)
    · exact absurd h (by decide)
  · -- path_clean
    intro x hx
    rw [hcp] at hx
    rcases mem_of_pathStep hx with h | h
    · exact hclean x (pyUrlsplit_path_mem (pyUrlparse_path_mem h))
    · rw [h]
      decide
  · -- path_slash
    intro hn
    rw [hcp]
    rw [hcn] at hn
    have hn' : (pyUrlparse input).netloc ≠ [] := by
      intro hcon
      apply hn
      split <;> simp [hcon]
    rw [pyUrlparse_netloc] at hn'
    have hsl := pyUrlparse_path_slash (pyUrlsplit_path_slash hn')
    rcases hsl with h | h
    · rw [h]
      decide
    · exact pathStep_head_slash h
  · -- query_no_h
    rw [hcq, pyUrlparse_query]
    exact pyUrlsplit_query_no_h input
  · -- query_clean
    intro x hx
    rw [hcq, pyUrlparse_query] at hx
    exact hclean x (pyUrlsplit_query_mem hx)

/-- On a parse already in normal form (no `www.` to strip left), the
component rewriting is the identity. -/
lemma normalizeParsed_fix {c : ParseResult} (h : NormForm c)
    (hwww : ¬("www.".toList.isPrefixOf c.netloc ∧ 4 < c.netloc.length)) :
    normalizeParsed c = c := by
  rw [normalizeParsed_eq]
  obtain ⟨a, t, hsch, _, _⟩ := h.scheme_shape
  have hsne : c.scheme ≠ [] := by
    rw [hsch]
    simp
  rw [if_neg hsne, h.netloc_lower, if_neg hwww, h.path_fix, ← h.frag]

lemma rstripSlash_of_pathStep_fix {l : List Char} (h : pathStep l = l) :
    l = ['/'] ∨ (rstripSlash l = l ∧ l ≠ []) := by
  unfold pathStep at h
  split at h
  · exact Or.inl h.symm
  · rename_i hne
    refine Or.inr ⟨h, ?_⟩
    rw [← h]
    exact hne

lemma splitOff_hash_pathq {path query : List Char} (hp : '#' ∉ path) (hq : '#' ∉ query) :
    splitOff '#' (path ++ (if query ≠ [] then '?' :: query else [])) =
      (path ++ (if query ≠ [] then '?' :: query else []), []) := by
  apply splitOff_of_not_mem
  intro hmem
  rcases List.mem_append.mp hmem with h | h
  · exact hp h
  · split at h
    · rcases List.mem_cons.mp h with he | he
      · exact absurd he (by decide)
      · exact hq he
    · simp at h

lemma splitOff_q_pathq {path : List Char} (query : List Char) (hp : '?' ∉ path) :
    splitOff '?' (path ++ (if query ≠ [] then '?' :: query else [])) = (path, query) := by
  by_cases hq : query ≠ []
  · rw [if_pos hq]
    exact splitOff_append hp
  · rw [if_neg hq]
    push_neg at hq
    rw [hq, List.append_nil]
    rw [splitOff_of_not_mem hp]

lemma splitNetloc_canonical {netloc : List Char}
    (hnd : ∀ x ∈ netloc, netlocDelim x = false) {e : Char} (es : List Char)
    (he : netlocDelim e = true) :
    splitNetloc ('/' :: '/' :: (netloc ++ e :: es)) = (netloc, e :: es) := by
  rw [splitNetloc_slash2, breakOn_append_of_forall _ _ _ hnd, breakOn_cons_pos _ he]
  simp

lemma take2_append_ne {path : List Char} (hne : path ≠ [])
    (h2 : path.take 2 ≠ ['/', '/']) (query : List Char) :
    (path ++ (if query ≠ [] then '?' :: query else [])).take 2 ≠ ['/', '/'] := by
  match path, hne with
  | [p1], _ =>
    by_cases hq : query ≠ []
    · rw [if_pos hq]
      intro hcon
      simp at hcon
    · rw [if_neg hq]
      intro hcon
      simp at hcon
  | p1 :: p2 :: pr, _ =>
    intro hcon
    apply h2
    simp at hcon ⊢
    exact hcon

/-- Splitting an assembled `scheme:rest` URL: the sanitisation steps are
the identity and the scheme is recovered unchanged. -/
lemma pyUrlsplit_assembled {a : Char} {t rest : List Char}
    (ha : asciiAlpha a = true) (ht : ∀ x ∈ t, schemeChar x = true)
    (hlow : (a :: t).map pyLower = a :: t)
    (hclean : ∀ x ∈ rest, ¬(x = '\t' ∨ x = '\r' ∨ x = '\n')) :
    pyUrlsplit ((a :: t) ++ ':' :: rest) =
      ⟨a :: t, (splitNetloc rest).1,
       (splitOff '?' (splitOff '#' (splitNetloc rest).2).1).1,
       (splitOff '?' (splitOff '#' (splitNetloc rest).2).1).2,
       (splitOff '#' (splitNetloc rest).2).2⟩ := by
  have hfull : ((a :: t) ++ ':' :: rest).dropWhile c0ControlOrSpace =
      (a :: t) ++ ':' :: rest := by
    show List.dropWhile _ (a :: (t ++ ':' :: rest)) = _
    rw [List.dropWhile_cons_of_neg (by simp [asciiAlpha_not_c0 ha])]
    rfl
  have hcleanfull : removeTabsNewlines ((a :: t) ++ ':' :: rest) = (a :: t) ++ ':' :: rest := by
    apply removeTabsNewlines_of_not_mem
    intro x hx
    rcases List.mem_append.mp hx with hx | hx
    · rcases List.mem_cons.mp hx with rfl | hx
      · exact asciiAlpha_clean ha
      · exact schemeChar_clean (ht x hx)
    · rcases List.mem_cons.mp hx with rfl | hx
      · decide
      · exact hclean x hx
  have hcolon : ':' ∉ a :: t := by
    intro hmem
    rcases List.mem_cons.mp hmem with he | he
    · rw [← he] at ha
      exact absurd ha (by decide)
    · exact absurd (ht _ he) (by decide)
  simp only [pyUrlsplit]
  rw [hfull, hcleanfull, splitScheme_valid ha ht hlow hcolon]

/-- `urlunparse` on a fragmentless, paramless parse with a scheme:
the two open conditions (netloc re-insertion and leading-slash repair)
remain, everything else is computed. -/
lemma pyUrlunparse_eq3 {c : ParseResult} (hp : c.params = []) (hf : c.fragment = [])
    (hs : c.scheme ≠ []) :
    pyUrlunparse c =
      (c.scheme ++ ':' ::
        (if c.netloc ≠ [] ∨ (c.scheme ≠ [] ∧ c.scheme ∈ usesNetloc ∧ c.path.take 2 ≠ ['/', '/'])
          then '/' :: '/' :: c.netloc ++
            (if c.path ≠ [] ∧ c.path.head? ≠ some '/' then '/' :: c.path else c.path)
          else c.path)) ++
        (if c.query ≠ [] then '?' :: c.query else []) := by
  have hnil : ¬(([] : List Char) ≠ []) := fun hcon => hcon rfl
  simp only [pyUrlunparse, hp, hf]
  rw [if_neg hnil, if_neg hnil]
  by_cases hq : c.query ≠ []
  · rw [if_pos hq, if_pos hq, if_pos hs]
  · rw [if_neg hq, if_neg hq, if_pos hs, List.append_nil]

/-- Re-serialise/re-parse round trip, case `//` emitted and path starting
with `/`: the parse recovers the components exactly. -/
lemma unparse_reparse_slash {c : ParseResult} (h : NormForm c)
    (hp : c.params = []) (hsemi : ';' ∉ c.path)
    (hwww : ¬("www.".toList.isPrefixOf c.netloc ∧ 4 < c.netloc.length))
    (hP : c.netloc ≠ [] ∨ (c.scheme ≠ [] ∧ c.scheme ∈ usesNetloc ∧ c.path.take 2 ≠ ['/', '/']))
    (hhead : c.path.head? = some '/') :
    pyUrlunparse (normalizeParsed (pyUrlparse (pyUrlunparse c))) = pyUrlunparse c := by
  obtain ⟨a, t, hsch, ha, ht⟩ := h.scheme_shape
  have hlow : (a :: t).map pyLower = a :: t := by
    rw [← hsch]
    exact h.scheme_lower
  have hsne : c.scheme ≠ [] := by
    rw [hsch]
    simp
  have hpne : c.path ≠ [] := by
    rw [← h.path_fix]
    exact pathStep_ne_nil _
  obtain ⟨ptl, hpath⟩ : ∃ ptl, c.path = '/' :: ptl :=
    ⟨c.path.tail, List.eq_cons_of_mem_head? hhead⟩
  have hqcl : ∀ x ∈ (if c.query ≠ [] then '?' :: c.query else []),
      ¬(x = '\t' ∨ x = '\r' ∨ x = '\n') := by
    intro x hx
    split at hx
    · rcases List.mem_cons.mp hx with rfl | hx
      · decide
      · exact h.query_clean x hx
    · simp at hx
  have hv : pyUrlunparse c =
      (a :: t) ++ ':' :: ('/' :: '/' ::
        (c.netloc ++ (c.path ++ (if c.query ≠ [] then '?' :: c.query else [])))) := by
    rw [pyUrlunparse_eq3 hp h.frag hsne, if_pos hP,
      if_neg (show ¬(c.path ≠ [] ∧ c.path.head? ≠ some '/') from fun hcon => hcon.2 hhead),
      hsch]
    simp [List.append_assoc]
  have hcl : ∀ x ∈ '/' :: '/' ::
      (c.netloc ++ (c.path ++ (if c.query ≠ [] then '?' :: c.query else []))),
      ¬(x = '\t' ∨ x = '\r' ∨ x = '\n') := by
    intro x hx
    rcases List.mem_cons.mp hx with rfl | hx
    · decide
    rcases List.mem_cons.mp hx with rfl | hx
    · decide
    rcases List.mem_append.mp hx with hx | hx
    · exact h.netloc_clean x hx
    rcases List.mem_append.mp hx with hx | hx
    · exact h.path_clean x hx
    · exact hqcl x hx
  have hnp : splitNetloc ('/' :: '/' ::
      (c.netloc ++ (c.path ++ (if c.query ≠ [] then '?' :: c.query else [])))) =
      (c.netloc, c.path ++ (if c.query ≠ [] then '?' :: c.query else [])) := by
    rw [hpath]
    exact splitNetloc_canonical h.netloc_delim
      (ptl ++ (if c.query ≠ [] then '?' :: c.query else [])) (by decide)
  have hfr := splitOff_hash_pathq h.path_no_h h.query_no_h
  have hqu := splitOff_q_pathq c.query h.path_no_q
  have hsplit : pyUrlsplit (pyUrlunparse c) =
      ⟨a :: t, c.netloc, c.path, c.query, []⟩ := by
    rw [hv, pyUrlsplit_assembled ha ht hlow hcl]
    simp only [hnp, hfr, hqu]
  have hcnd : ¬((pyUrlsplit (pyUrlunparse c)).scheme ∈ usesParams ∧
      ';' ∈ (pyUrlsplit (pyUrlunparse c)).path) := by
    rw [hsplit]
    rintro ⟨-, hmem⟩
    exact hsemi hmem
  have hceq : (⟨a :: t, c.netloc, c.path, [], c.query, []⟩ : ParseResult) = c := by
    have hmk : ParseResult.mk (a :: t) c.netloc c.path [] c.query [] =
        ParseResult.mk c.scheme c.netloc c.path c.params c.query c.fragment := by
      rw [hsch, hp, h.frag]
    exact hmk
  have hparse : pyUrlparse (pyUrlunparse c) = c := by
    rw [pyUrlparse_eq_no_params hcnd, hsplit]
    show (⟨a :: t, c.netloc, c.path, [], c.query, []⟩ : ParseResult) = c
    exact hceq
  rw [hparse, normalizeParsed_fix h hwww]

/-- Round trip, case empty netloc, `uses_netloc` scheme, path not
starting with `/`: the re-parse turns path `p` into `/p`, which is a
fixed point of the transform and re-serialises identically. -/
lemma unparse_reparse_noslash {c : ParseResult} (h : NormForm c)
    (hp : c.params = []) (hsemi : ';' ∉ c.path)
    (hn : c.netloc = []) (hu : c.scheme ∈ usesNetloc)
    (hh : ¬(c.path.head? = some '/')) :
    pyUrlunparse (normalizeParsed (pyUrlparse (pyUrlunparse c))) = pyUrlunparse c := by
  obtain ⟨a, t, hsch, ha, ht⟩ := h.scheme_shape
  have hlow : (a :: t).map pyLower = a :: t := by
    rw [← hsch]
    exact h.scheme_lower
  have hsne : c.scheme ≠ [] := by
    rw [hsch]
    simp
  have hpne : c.path ≠ [] := by
    rw [← h.path_fix]
    exact pathStep_ne_nil _
  obtain ⟨e, es, hpe⟩ : ∃ e es, c.path = e :: es :=
    match c.path, hpne with
    | x :: xs, _ => ⟨x, xs, rfl⟩
  have he : e ≠ '/' := by
    intro hcon
    apply hh
    rw [hpe, hcon]
    rfl
  have htk2 : ('/' :: c.path).take 2 ≠ ['/', '/'] := by
    rw [hpe]
    intro hcon
    simp at hcon
    exact he hcon
  have htk : c.path.take 2 ≠ ['/', '/'] := by
    rw [hpe]
    intro hcon
    simp at hcon
    exact he hcon.1
  have hP : c.netloc ≠ [] ∨ (c.scheme ≠ [] ∧ c.scheme ∈ usesNetloc ∧
      c.path.take 2 ≠ ['/', '/']) := Or.inr ⟨hsne, hu, htk⟩
  have hqcl : ∀ x ∈ (if c.query ≠ [] then '?' :: c.query else []),
      ¬(x = '\t' ∨ x = '\r' ∨ x = '\n') := by
    intro x hx
    split at hx
    · rcases List.mem_cons.mp hx with rfl | hx
      · decide
      · exact h.query_clean x hx
    · simp at hx
  have hv : pyUrlunparse c =
      (a :: t) ++ ':' :: ('/' :: '/' ::
        (('/' :: c.path) ++ (if c.query ≠ [] then '?' :: c.query else []))) := by
    rw [pyUrlunparse_eq3 hp h.frag hsne, if_pos hP, if_pos ⟨hpne, hh⟩, hsch, hn]
    simp [List.append_assoc]
  have hcl : ∀ x ∈ '/' :: '/' ::
      (('/' :: c.path) ++ (if c.query ≠ [] then '?' :: c.query else [])),
      ¬(x = '\t' ∨ x = '\r' ∨ x = '\n') := by
    intro x hx
    rcases List.mem_cons.mp hx with rfl | hx
    · decide
    rcases List.mem_cons.mp hx with rfl | hx
    · decide
    rcases List.mem_append.mp hx with hx | hx
    · rcases List.mem_cons.mp hx with rfl | hx
      · decide
      · exact h.path_clean x hx
    · exact hqcl x hx
  have hno_h2 : '#' ∉ '/' :: c.path := by
    intro hmem
    rcases List.mem_cons.mp hmem with hcon | hmem
    · exact absurd hcon (by decide)
    · exact h.path_no_h hmem
  have hno_q2 : '?' ∉ '/' :: c.path := by
    intro hmem
    rcases List.mem_cons.mp hmem with hcon | hmem
    · exact absurd hcon (by decide)
    · exact h.path_no_q hmem
  have hnp : splitNetloc ('/' :: '/' ::
      (('/' :: c.path) ++ (if c.query ≠ [] then '?' :: c.query else []))) =
      (c.netloc, ('/' :: c.path) ++ (if c.query ≠ [] then '?' :: c.query else [])) := by
    rw [hn]
    exact @splitNetloc_canonical [] (fun x hx => by simp at hx) '/'
      (c.path ++ (if c.query ≠ [] then '?' :: c.query else [])) (by decide)
  have hfr := splitOff_hash_pathq hno_h2 h.query_no_h
  have hqu := @splitOff_q_pathq ('/' :: c.path) c.query hno_q2
  have hsplit : pyUrlsplit (pyUrlunparse c) =
      ⟨a :: t, c.netloc, '/' :: c.path, c.query, []⟩ := by
    rw [hv, pyUrlsplit_assembled ha ht hlow hcl]
    simp only [hnp, hfr, hqu]
  have hcnd : ¬((pyUrlsplit (pyUrlunparse c)).scheme ∈ usesParams ∧
      ';' ∈ (pyUrlsplit (pyUrlunparse c)).path) := by
    rw [hsplit]
    rintro ⟨-, hmem⟩
    rcases List.mem_cons.mp hmem with hcon | hmem
    · exact absurd hcon (by decide)
    · exact hsemi hmem
  have hparse : pyUrlparse (pyUrlunparse c) =
      ⟨c.scheme, c.netloc, '/' :: c.path, [], c.query, []⟩ := by
    rw [pyUrlparse_eq_no_params hcnd, hsplit]
    show (⟨a :: t, c.netloc, '/' :: c.path, [], c.query, []⟩ : ParseResult) = _
    rw [hsch]
  have hfix2 : pathStep ('/' :: c.path) = '/' :: c.path := by
    rcases rstripSlash_of_pathStep_fix h.path_fix with hca | ⟨hfixp, hnep⟩
    · exact absurd (by rw [hca]; rfl) hh
    · have hrs := rstripSlash_cons_of_fix hfixp hnep '/'
      unfold pathStep
      rw [hrs]
      rw [if_neg (by simp)]
  have h2 : NormForm ⟨c.scheme, c.netloc, '/' :: c.path, [], c.query, []⟩ := by
    refine ⟨⟨a, t, hsch, ha, ht⟩, h.scheme_lower, h.netloc_delim, h.netloc_lower,
      h.netloc_clean, hfix2, hno_q2, hno_h2, ?_, fun _ => rfl, h.query_no_h,
      h.query_clean, rfl⟩
    intro x hx
    rcases List.mem_cons.mp hx with rfl | hx
    · decide
    · exact h.path_clean x hx
  have hwww2 : ¬("www.".toList.isPrefixOf
      (⟨c.scheme, c.netloc, '/' :: c.path, [], c.query, []⟩ : ParseResult).netloc ∧
      4 < (⟨c.scheme, c.netloc, '/' :: c.path, [], c.query, []⟩ : ParseResult).netloc.length) := by
    intro hcon
    rcases hcon with ⟨-, hlen⟩
    rw [hn] at hlen
    simp at hlen
  rw [hparse, normalizeParsed_fix h2 hwww2,
    pyUrlunparse_eq3 (c := ⟨c.scheme, c.netloc, '/' :: c.path, [], c.query, []⟩) rfl rfl hsne,
    if_pos (Or.inr ⟨hsne, hu, htk2⟩),
    if_neg (show ¬('/' :: c.path ≠ [] ∧ ('/' :: c.path).head? ≠ some '/') from
      fun hcon => hcon.2 rfl),
    hv, hsch, hn]
  simp [List.append_assoc]

/-- Round trip, case empty netloc and scheme outside `uses_netloc`: no
`//` is emitted and the parse recovers the components exactly. -/
lemma unparse_reparse_opaque {c : ParseResult} (h : NormForm c)
    (hp : c.params = []) (hsemi : ';' ∉ c.path)
    (hwww : ¬("www.".toList.isPrefixOf c.netloc ∧ 4 < c.netloc.length))
    (hn : c.netloc = []) (hu : c.scheme ∉ usesNetloc)
    (htk : c.path.take 2 ≠ ['/', '/']) :
    pyUrlunparse (normalizeParsed (pyUrlparse (pyUrlunparse c))) = pyUrlunparse c := by
  obtain ⟨a, t, hsch, ha, ht⟩ := h.scheme_shape
  have hlow : (a :: t).map pyLower = a :: t := by
    rw [← hsch]
    exact h.scheme_lower
  have hsne : c.scheme ≠ [] := by
    rw [hsch]
    simp
  have hpne : c.path ≠ [] := by
    rw [← h.path_fix]
    exact pathStep_ne_nil _
  have hPn : ¬(c.netloc ≠ [] ∨ (c.scheme ≠ [] ∧ c.scheme ∈ usesNetloc ∧
      c.path.take 2 ≠ ['/', '/'])) := by
    rintro (hcon | ⟨-, hcon, -⟩)
    · exact hcon hn
    · exact hu hcon
  have hqcl : ∀ x ∈ (if c.query ≠ [] then '?' :: c.query else []),
      ¬(x = '\t' ∨ x = '\r' ∨ x = '\n') := by
    intro x hx
    split at hx
    · rcases List.mem_cons.mp hx with rfl | hx
      · decide
      · exact h.query_clean x hx
    · simp at hx
  have hv : pyUrlunparse c =
      (a :: t) ++ ':' :: (c.path ++ (if c.query ≠ [] then '?' :: c.query else [])) := by
    rw [pyUrlunparse_eq3 hp h.frag hsne, if_neg hPn, hsch]
    simp [List.append_assoc]
  have hcl : ∀ x ∈ c.path ++ (if c.query ≠ [] then '?' :: c.query else []),
      ¬(x = '\t' ∨ x = '\r' ∨ x = '\n') := by
    intro x hx
    rcases List.mem_append.mp hx with hx | hx
    · exact h.path_clean x hx
    · exact hqcl x hx
  have hnp : splitNetloc (c.path ++ (if c.query ≠ [] then '?' :: c.query else [])) =
      (c.netloc, c.path ++ (if c.query ≠ [] then '?' :: c.query else [])) := by
    rw [hn]
    exact splitNetloc_of_ne _ (take2_append_ne hpne htk c.query)
  have hfr := splitOff_hash_pathq h.path_no_h h.query_no_h
  have hqu := splitOff_q_pathq c.query h.path_no_q
  have hsplit : pyUrlsplit (pyUrlunparse c) =
      ⟨a :: t, c.netloc, c.path, c.query, []⟩ := by
    rw [hv, pyUrlsplit_assembled ha ht hlow hcl]
    simp only [hnp, hfr, hqu]
  have hcnd : ¬((pyUrlsplit (pyUrlunparse c)).scheme ∈ usesParams ∧
      ';' ∈ (pyUrlsplit (pyUrlunparse c)).path) := by
    rw [hsplit]
    rintro ⟨-, hmem⟩
    exact hsemi hmem
  have hceq : (⟨a :: t, c.netloc, c.path, [], c.query, []⟩ : ParseResult) = c := by
    have hmk : ParseResult.mk (a :: t) c.netloc c.path [] c.query [] =
        ParseResult.mk c.scheme c.netloc c.path c.params c.query c.fragment := by
      rw [hsch, hp, h.frag]
    exact hmk
  have hparse : pyUrlparse (pyUrlunparse c) = c := by
    rw [pyUrlparse_eq_no_params hcnd, hsplit]
    show (⟨a :: t, c.netloc, c.path, [], c.query, []⟩ : ParseResult) = c
    exact hceq
  rw [hparse, normalizeParsed_fix h hwww]

/-- Round trip for every normalized parse satisfying the stability side
conditions: re-parsing the serialised URL and normalizing again
reproduces the same serialised URL. -/
lemma unparse_reparse {c : ParseResult} (h : NormForm c)
    (hp : c.params = []) (hsemi : ';' ∉ c.path)
    (hwww : ¬("www.".toList.isPrefixOf c.netloc ∧ 4 < c.netloc.length))
    (hdd : ¬(c.netloc = [] ∧ c.path.take 2 = ['/', '/'])) :
    pyUrlunparse (normalizeParsed (pyUrlparse (pyUrlunparse c))) = pyUrlunparse c := by
  have hsne : c.scheme ≠ [] := by
    obtain ⟨a, t, hsch, -, -⟩ := h.scheme_shape
    rw [hsch]
    simp
  by_cases hn : c.netloc = []
  · have htk : c.path.take 2 ≠ ['/', '/'] := fun hcon => hdd ⟨hn, hcon⟩
    by_cases hu : c.scheme ∈ usesNetloc
    · by_cases hh : c.path.head? = some '/'
      · exact unparse_reparse_slash h hp hsemi hwww (Or.inr ⟨hsne, hu, htk⟩) hh
      · exact unparse_reparse_noslash h hp hsemi hn hu hh
    · exact unparse_reparse_opaque h hp hsemi hwww hn hu htk
  · exact unparse_reparse_slash h hp hsemi hwww (Or.inl hn) (h.path_slash hn)

/-- C2 (counterexample): URL canonicalization is NOT idempotent for
every URL.  For `https://www.www.example.com/x` the first pass strips
one `www.` label (leaving `www.example.com`), and the second pass
strips another, so `Canonicalize(Canonicalize(u)) ≠ Canonicalize(u)`. -/
theorem normalizeUrl_not_idempotent_counterexample :
    normalizeUrl (normalizeUrl "https://www.www.example.com/x") ≠
      normalizeUrl "https://www.www.example.com/x" := by decide

set_option maxHeartbeats 1000000 in
/-- C2 (amended): canonicalization is idempotent for every URL whose
canonical form is stable: the canonical URL has no leading/trailing
whitespace left to strip, its host does not again start with a
strippable `www.` label, its path carries no `;params` part, and an
empty host is not followed by a `//`-headed path.  Outside these four
edge families (multi-`www` hosts, whitespace ahead of a dropped
fragment, `;`-parameter re-splitting, `https:////x`-style paths) the
spec's idempotence invariant holds. -/
theorem normalizeUrl_idempotent_of_stable (u : String)
    (hstrip : pyStrip (normalizeUrl u).toList = (normalizeUrl u).toList)
    (hparams : (normalizeParsed (pyUrlparse (pyStrip u.toList))).params = [])
    (hsemi : ';' ∉ (normalizeParsed (pyUrlparse (pyStrip u.toList))).path)
    (hwww : ¬("www.".toList.isPrefixOf
        (normalizeParsed (pyUrlparse (pyStrip u.toList))).netloc ∧
      4 < (normalizeParsed (pyUrlparse (pyStrip u.toList))).netloc.length))
    (hdd : ¬((normalizeParsed (pyUrlparse (pyStrip u.toList))).netloc = [] ∧
      (normalizeParsed (pyUrlparse (pyStrip u.toList))).path.take 2 = ['/', '/'])) :
    normalizeUrl (normalizeUrl u) = normalizeUrl u := by
  have hnf := normForm_normalizeParsed (pyStrip u.toList)
  have hrt := unparse_reparse hnf hparams hsemi hwww hdd
  show (pyUrlunparse (normalizeParsed (pyUrlparse
      (pyStrip (normalizeUrl u).toList)))).asString = normalizeUrl u
  rw [hstrip]
  show (pyUrlunparse (normalizeParsed (pyUrlparse (pyUrlunparse
      (normalizeParsed (pyUrlparse (pyStrip u.toList))))))).asString =
    (pyUrlunparse (normalizeParsed (pyUrlparse (pyStrip u.toList)))).asString
  exact congrArg List.asString hrt

/-- C2 (witness): the amended idempotence theorem applied to the
concrete URL `HTTP://WWW.Example.com/a/`, whose canonical form
`https://example.com/a` is stable. -/
theorem normalizeUrl_idempotent_witness :
    normalizeUrl (normalizeUrl "HTTP://WWW.Example.com/a/") =
      normalizeUrl "HTTP://WWW.Example.com/a/" :=
  normalizeUrl_idempotent_of_stable "HTTP://WWW.Example.com/a/" (by decide) (by decide)
    (by decide) (by decide) (by decide)

end WebScrapper
